import Mathlib

/-!
Verification of the engine-driving core of the leela-analysis repository
(src/sgftools/ray.py, src/analyzetools/analyze.py, src/sgfanalyze.py).

Python strings are modeled as `List Char`, Python floats as `ℚ` (all the
arithmetic the claims touch is +, *, /, 1-x on decimal literals), Python
integers as `ℕ`/`ℤ`.  Operations that can raise are modeled in `Option`
or `Except String`.
-/

namespace RayCLI

/-- SGF coordinate alphabet (ray.py line 10). -/
def SGF_COORD : List Char := "abcdefghijklmnopqrstuvwxy".toList

/-- Engine board coordinate alphabet, without the letter i (ray.py line 11). -/
def BOARD_COORD : List Char := "abcdefghjklmnopqrstuvwxyz".toList

/-- Python `s.index(c)`: position of the first occurrence, error (`none`) when
the character is absent. -/
def pyStrIndex (l : List Char) (c : Char) : Option Nat :=
  l.findIdx? (fun a => a = c)

/-- Python sequence indexing `l[i]` with negative-index wraparound; error
(`none`) when out of range. -/
def pyGet (l : List Char) (i : ℤ) : Option Char :=
  if 0 ≤ i then l.get? i.toNat
  else if (-i).toNat ≤ l.length then l.get? (l.length - (-i).toNat)
  else none

def digitChar (n : ℕ) : Char := Char.ofNat (48 + n)

def natDigitsAux : ℕ → ℕ → List Char
  | 0, _ => []
  | fuel + 1, n =>
    if n < 10 then [digitChar n]
    else natDigitsAux fuel (n / 10) ++ [digitChar (n % 10)]

/-- Decimal rendering of a natural number (the `%d` format for nonnegatives). -/
def natDigits (n : ℕ) : List Char := natDigitsAux (n + 1) n

/-- Decimal rendering of an integer (Python `%d`). -/
def intToChars (i : ℤ) : List Char :=
  if i < 0 then '-' :: natDigits (-i).toNat else natDigits i.toNat

def digitVal (c : Char) : Option ℕ :=
  if '0' ≤ c ∧ c ≤ '9' then some (c.toNat - 48) else none

def parseNatAux : List Char → ℕ → Option ℕ
  | [], acc => some acc
  | c :: cs, acc =>
    match digitVal c with
    | some d => parseNatAux cs (acc * 10 + d)
    | none => none

/-- Python `int()` on a string: an optional sign followed by decimal digits;
error (`none`) on anything else. -/
def pyInt : List Char → Option ℤ
  | [] => none
  | '-' :: cs =>
    match cs with
    | [] => none
    | _ => (parseNatAux cs 0).map (fun n => -(n : ℤ))
  | cs => (parseNatAux cs 0).map (fun n => (n : ℤ))

/-- ray.py `CLI.convert_position` (lines 112-123): convert an SGF (record)
coordinate to an engine board coordinate.  There is no special case for the
empty/pass coordinate: `pos[0]` on an empty string is an IndexError (`none`). -/
def convert_position (board_size : ℕ) (pos : List Char) : Option (List Char) := do
  let c0 ← pos.get? 0
  let i0 ← pyStrIndex SGF_COORD c0
  let x ← pyGet BOARD_COORD (i0 : ℤ)
  let c1 ← pos.get? 1
  let i1 ← pyStrIndex SGF_COORD c1
  let y : ℤ := (board_size : ℤ) - (i1 : ℤ)
  return x :: intToChars y

/-- ray.py `CLI.parse_position` (lines 125-140): convert an engine board
coordinate to an SGF (record) coordinate; `"pass"` maps to the empty SGF
coordinate. -/
def parse_position (board_size : ℕ) (pos : List Char) : Option (List Char) :=
  if pos = "pass".toList then some [] else do
    let c0 ← pos.get? 0
    let x ← pyStrIndex BOARD_COORD c0.toLower
    let n ← pyInt (pos.drop 1)
    let y : ℤ := (board_size : ℤ) - n
    let a ← pyGet SGF_COORD (x : ℤ)
    let b ← pyGet SGF_COORD y
    return [a, b]

lemma sgf_index_fin :
    ∀ i : Fin 25, pyStrIndex SGF_COORD (SGF_COORD.getD i.val ' ') = some i.val := by
  decide

lemma sgf_index (i : ℕ) (h : i < 25) :
    pyStrIndex SGF_COORD (SGF_COORD.getD i ' ') = some i := sgf_index_fin ⟨i, h⟩

lemma board_index_lower_fin :
    ∀ i : Fin 25, pyStrIndex BOARD_COORD ((BOARD_COORD.getD i.val ' ').toLower) = some i.val := by
  decide

lemma board_index_lower (i : ℕ) (h : i < 25) :
    pyStrIndex BOARD_COORD ((BOARD_COORD.getD i ' ').toLower) = some i :=
  board_index_lower_fin ⟨i, h⟩

lemma board_pyGet_fin :
    ∀ i : Fin 25, pyGet BOARD_COORD (i.val : ℤ) = some (BOARD_COORD.getD i.val ' ') := by
  decide

lemma board_pyGet (i : ℕ) (h : i < 25) :
    pyGet BOARD_COORD (i : ℤ) = some (BOARD_COORD.getD i ' ') := board_pyGet_fin ⟨i, h⟩

lemma sgf_pyGet_fin :
    ∀ i : Fin 25, pyGet SGF_COORD (i.val : ℤ) = some (SGF_COORD.getD i.val ' ') := by
  decide

lemma sgf_pyGet (i : ℕ) (h : i < 25) :
    pyGet SGF_COORD (i : ℤ) = some (SGF_COORD.getD i ' ') := sgf_pyGet_fin ⟨i, h⟩

lemma pyInt_natDigits_fin : ∀ y : Fin 26, pyInt (natDigits y.val) = some (y.val : ℤ) := by
  decide

lemma pyInt_natDigits (y : ℕ) (h : y ≤ 25) :
    pyInt (natDigits y) = some (y : ℤ) := pyInt_natDigits_fin ⟨y, Nat.lt_succ_of_le h⟩

lemma natDigits_ne_ass_fin : ∀ y : Fin 26, natDigits y.val ≠ ['a', 's', 's'] := by
  decide

lemma natDigits_ne_ass (y : ℕ) (h : y ≤ 25) :
    natDigits y ≠ ['a', 's', 's'] := natDigits_ne_ass_fin ⟨y, Nat.lt_succ_of_le h⟩

lemma intToChars_nat_sub (size i1 : ℕ) (h : i1 ≤ size) :
    intToChars ((size : ℤ) - (i1 : ℤ)) = natDigits (size - i1) := by
  rw [intToChars, if_neg (by omega)]
  congr 1
  omega

/-- C7 counterexample: the empty record coordinate does **not** map back to
"pass" — `convert_position` has no special case for it and indexing the empty
string is an error (Python IndexError), refuting the claimed empty ↦ "pass"
direction of the round trip. -/
theorem C7_counterexample :
    convert_position 19 [] = none ∧ (none : Option (List Char)) ≠ some ("pass".toList) := by
  exact ⟨rfl, by decide⟩

/-- C7 (amended): for every board size up to the 25-letter coordinate
alphabets and every legal coordinate pair (letter indices below the board
size), converting a record (SGF) coordinate to an engine coordinate and back
is the identity, converting the corresponding engine coordinate to the record
coordinate and back is the identity, and the engine move "pass" maps to the
empty record coordinate.  (The reverse "" ↦ "pass" mapping does not hold in
`convert_position`; it lives in `CLI.add_move` instead.) -/
theorem C7_amended_roundtrip (size i0 i1 : ℕ) (hs : size ≤ 25)
    (h3 : i0 < size) (h4 : i1 < size) :
    convert_position size [SGF_COORD.getD i0 ' ', SGF_COORD.getD i1 ' ']
      = some (BOARD_COORD.getD i0 ' ' :: natDigits (size - i1))
    ∧ parse_position size (BOARD_COORD.getD i0 ' ' :: natDigits (size - i1))
      = some [SGF_COORD.getD i0 ' ', SGF_COORD.getD i1 ' ']
    ∧ parse_position size ("pass".toList) = some [] := by
  have hi0 : i0 < 25 := lt_of_lt_of_le h3 hs
  have hi1 : i1 < 25 := lt_of_lt_of_le h4 hs
  have hy2 : size - i1 ≤ 25 := by omega
  refine ⟨?_, ?_, rfl⟩
  · simp only [convert_position, List.get?_cons_zero, List.get?_cons_succ,
      Option.bind_eq_bind, Option.some_bind, Option.pure_def,
      sgf_index i0 hi0, sgf_index i1 hi1, board_pyGet i0 hi0,
      intToChars_nat_sub size i1 (le_of_lt h4)]
  · have hpass : (BOARD_COORD.getD i0 ' ' :: natDigits (size - i1)) ≠ "pass".toList := by
      intro h
      have : natDigits (size - i1) = ['a', 's', 's'] := by
        have := congrArg List.tail h
        simpa using this
      exact natDigits_ne_ass _ hy2 this
    rw [parse_position, if_neg hpass]
    simp only [List.get?_cons_zero, Option.bind_eq_bind, Option.some_bind, Option.pure_def,
      board_index_lower i0 hi0,
      List.drop_succ_cons, List.drop_zero, pyInt_natDigits _ hy2, sgf_pyGet i0 hi0]
    have harith : (size : ℤ) - ((size - i1 : ℕ) : ℤ) = (i1 : ℤ) := by omega
    simp only [harith, sgf_pyGet i1 hi1, Option.some_bind, Option.pure_def]

/-- C7 witness: the amended round trip at board size 19 with the record
coordinate "cd" (indices 2 and 3), i.e. engine coordinate "c16". -/
theorem C7_witness :
    convert_position 19 [SGF_COORD.getD 2 ' ', SGF_COORD.getD 3 ' ']
      = some (BOARD_COORD.getD 2 ' ' :: natDigits (19 - 3))
    ∧ parse_position 19 (BOARD_COORD.getD 2 ' ' :: natDigits (19 - 3))
      = some [SGF_COORD.getD 2 ' ', SGF_COORD.getD 3 ' ']
    ∧ parse_position 19 ("pass".toList) = some [] :=
  C7_amended_roundtrip 19 2 3 (by decide) (by decide) (by decide)

/-! ## Response parsing (ray.py CLI.parse and helpers) -/

/-- A player color. -/
inductive Color
  | black
  | white
deriving DecidableEq

/-- The opposite color. -/
def Color.other : Color → Color
  | Color.black => Color.white
  | Color.white => Color.black

/-- One history entry: the command "play <color> <pos>" built by
`CLI.add_move` (ray.py lines 155-163), kept structured; `pos` is an engine
coordinate. -/
structure PlayCmd where
  color : Color
  pos : List Char
deriving DecidableEq

/-- ray.py `CLI.whose_turn` (lines 171-175).  The source tests the substring
"white" in the rendered last command; commands are exactly
"play <color> <pos>" and coordinate text never contains "white", so the test
holds iff the last command's color is white. -/
def whose_turn (is_handicap_game : Bool) (history : List PlayCmd) : Color :=
  match history.getLast? with
  | none => if is_handicap_game then Color.white else Color.black
  | some cmd => if cmd.color = Color.white then Color.black else Color.white

/-- ray.py `CLI.parse.flip_winrate` (lines 330-331): re-orient a win rate
depending on whose turn it is. -/
def flip_winrate (is_handicap_game : Bool) (history : List PlayCmd) (wr : ℚ) : ℚ :=
  if whose_turn is_handicap_game history = Color.white then 1 - wr else wr

/-- ray.py `CLI.to_fraction` (lines 177-179). -/
def to_fraction (v : ℚ) : ℚ := 0.01 * v

/-- The stats dictionary built by `CLI.parse`; Python dict keys become
optional fields (absent key = `none`).  A chosen move of "resign" is stored
as the literal token "resign". -/
structure Stats where
  bookmoves : Option ℕ := none
  positions : Option ℕ := none
  mc_winrate : Option ℚ := none
  nn_winrate : Option ℚ := none
  margin : Option (List Char) := none
  best : Option (List Char) := none
  winrate : Option ℚ := none
  visits : Option ℕ := none
  chosen : Option (List Char) := none
deriving DecidableEq

/-- One entry of parse's move_list (ray.py lines 368-377).  Candidates parsed
from stderr move lines carry `is_book = false` (their Python dict has no
is_book key); the synthetic book candidate of line 404 carries
`is_book = true` (its Python dict has only the pos and is_book keys, the
remaining fields are modeled by zero defaults and are never read for it). -/
structure CandidateMove where
  pos : List Char
  visits : ℕ := 0
  winrate : ℚ := 0
  mc_winrate : ℚ := 0
  nn_winrate : ℚ := 0
  nn_count : ℕ := 0
  policy_prob : ℚ := 0
  pv : List (List Char) := []
  is_book : Bool := false
deriving DecidableEq

/-- Raw regex groups of one stderr candidate-move line (move_regex), with the
numeric groups already read as numbers: group 1 the engine coordinate, group 2
the visit count, groups 3-5 percentages, group 6 the net count, group 7 the
policy percentage, group 8 the principal variation as engine coordinate
tokens. -/
structure MoveGroups where
  pos : List Char
  visits : ℕ
  winrate : ℚ
  mc_winrate : ℚ
  nn_winrate : ℚ
  nn_count : ℕ
  policy_prob : ℚ
  pv : List (List Char)

/-- Modelled from the spec: the regex patterns of ray.py (module constants
update_regex .. best_regex, lines 14-20) are engine-version-specific — the
spec fixes only which groups each pattern yields — and the source leaves them
as empty placeholder strings.  Each matcher returns the processed groups of a
match against one (stripped) stderr line, or `none`; `finished` is the
stdout pattern whose group 1 is the chosen-move token. -/
structure RayMatchers where
  bookmove : List Char → Option (ℕ × ℕ)
  status : List Char → Option (ℚ × ℚ × List Char)
  move : List Char → Option MoveGroups
  best : List Char → Option (ℚ × List Char)
  stats : List Char → Option ℕ
  finished : List Char → Option (List Char)

/-- Python `str.strip()`: remove leading and trailing whitespace. -/
def pyStrip (s : List Char) : List Char :=
  ((s.dropWhile Char.isWhitespace).reverse.dropWhile Char.isWhitespace).reverse

/-- The stderr terminal-banner test of ray.py line 338:
`line.startswith("================")`. -/
def isBannerLine (line : List Char) : Bool :=
  line.take 16 = "================".toList

/-- A raised Python exception, modeled as `Except.error`. -/
def liftOpt (msg : String) : Option α → Except String α
  | some a => Except.ok a
  | none => Except.error msg

/-- Scan state of parse's stderr loop (ray.py lines 333-393). -/
structure ScanState where
  finished : Bool := false
  summarized : Bool := false
  stats : Stats := {}
  move_list : List CandidateMove := []
deriving DecidableEq

/-- One iteration of parse's stderr loop (ray.py lines 336-393): strip the
line, flip the finished flag on the banner, then try the bookmove, status and
move patterns, and — once finished and not yet summarized — the best and
stats patterns.  Failed coordinate conversions are raised errors. -/
def parseLine (m : RayMatchers) (board_size : ℕ) (is_handicap_game : Bool)
    (history : List PlayCmd) (st : ScanState) (raw : List Char) :
    Except String ScanState := do
  let line := pyStrip raw
  let st := if isBannerLine line then { st with finished := true } else st
  let st :=
    match m.bookmove line with
    | some (a, b) =>
      { st with stats := { st.stats with bookmoves := some a, positions := some b } }
    | none => st
  let st :=
    match m.status line with
    | some (w1, w2, mar) =>
      { st with stats := { st.stats with
          mc_winrate := some (flip_winrate is_handicap_game history w1),
          nn_winrate := some (flip_winrate is_handicap_game history w2),
          margin := some mar } }
    | none => st
  let st ←
    match m.move line with
    | some g => do
      let pos ← liftOpt "parse_position" (parse_position board_size g.pos)
      let pv ← g.pv.mapM (fun p => liftOpt "parse_position" (parse_position board_size p))
      let info : CandidateMove :=
        { pos := pos,
          visits := g.visits,
          winrate := flip_winrate is_handicap_game history (to_fraction g.winrate),
          mc_winrate := flip_winrate is_handicap_game history (to_fraction g.mc_winrate),
          nn_winrate := flip_winrate is_handicap_game history (to_fraction g.nn_winrate),
          nn_count := g.nn_count,
          policy_prob := to_fraction g.policy_prob,
          pv := pv,
          is_book := false }
      pure { st with move_list := st.move_list ++ [info] }
    | none => pure st
  if st.finished ∧ ¬ st.summarized then do
    let st ←
      match m.best line with
      | some (w, tok) => do
        let b ← liftOpt "parse_position" (parse_position board_size tok)
        pure { st with stats := { st.stats with
            best := some b,
            winrate := some (flip_winrate is_handicap_game history (to_fraction w)) } }
      | none => pure st
    match m.stats line with
    | some v =>
      pure { st with summarized := true, stats := { st.stats with visits := some v } }
    | none => pure st
  else
    pure st

/-- Parse's stderr loop (ray.py lines 333-393). -/
def scanStderr (m : RayMatchers) (board_size : ℕ) (is_handicap_game : Bool)
    (history : List PlayCmd) (stderr : List (List Char)) : Except String ScanState :=
  stderr.foldlM (parseLine m board_size is_handicap_game history) {}

/-- Parse's chosen-move extraction from the joined stdout (ray.py lines
395-400). -/
def parseChosen (m : RayMatchers) (board_size : ℕ) (stdout : List (List Char))
    (stats : Stats) : Except String Stats :=
  match m.finished stdout.flatten with
  | some tok =>
    if tok = "resign".toList then pure { stats with chosen := some ("resign".toList) }
    else do
      let c ← liftOpt "parse_position" (parse_position board_size tok)
      pure { stats with chosen := some c }
  | none => pure stats

/-- The boost constant of the sort key (ray.py line 414). -/
def BOOST : ℕ := 1000000000000000

/-- Stable descending insertion by a natural-number key: an element is placed
before the first element whose key is not greater, so equal keys keep their
original order. -/
def insertDescBy (key : CandidateMove → ℕ) (a : CandidateMove) :
    List CandidateMove → List CandidateMove
  | [] => [a]
  | b :: bs => if key a < key b then b :: insertDescBy key a bs else a :: b :: bs

/-- Stable descending sort by a natural-number key: the model of Python
`sorted(..., key=..., reverse=True)`, which is guaranteed stable. -/
def sortedDescBy (key : CandidateMove → ℕ) : List CandidateMove → List CandidateMove
  | [] => []
  | a :: as => insertDescBy key a (sortedDescBy key as)

/-- The warnings of ray.py lines 406-411, one per missing required key. -/
def missingWarnings (stats : Stats) : List String :=
  (if stats.mc_winrate.isNone then ["WARNING: analysis stats missing mc_winrate data"] else [])
  ++ (if stats.margin.isNone then ["WARNING: analysis stats missing margin data"] else [])
  ++ (if stats.best.isNone then ["WARNING: analysis stats missing best data"] else [])
  ++ (if stats.winrate.isNone then ["WARNING: analysis stats missing winrate data"] else [])
  ++ (if stats.visits.isNone then ["WARNING: analysis stats missing visits data"] else [])

/-- ray.py parse lines 402-422: post-scan assembly.  Python dict access
`stats[k]` on a missing key raises KeyError, modeled as `Except.error`.  The
sort key lambda at line 414 names its parameter `key` but reads the variable
`info` leaked from the scan loop — i.e. the **last** candidate parsed — so the
key it computes is constant across the list being sorted (and its evaluation
reads stats["best"]); `sorted` never evaluates the key on an empty list. -/
def parseFinalize (sc : ScanState) : Except String (Stats × List CandidateMove × List String) := do
  let stats := sc.stats
  let move_list := sc.move_list
  if stats.bookmoves.isSome ∧ move_list = [] then do
    let chosen ← liftOpt "KeyError: chosen" stats.chosen
    pure (stats, [{ pos := chosen, is_book := true }], [])
  else do
    let warnings := missingWarnings stats
    let move_list ←
      match move_list.getLast? with
      | none => pure move_list
      | some info => do
        let best ← liftOpt "KeyError: best" stats.best
        pure (sortedDescBy (fun _ => if info.pos = best then BOOST else info.visits) move_list)
    let move_list :=
      (move_list.enum.filter (fun p => p.1 = 0 ∨ 0 < p.2.visits)).map Prod.snd
    let chosen ← liftOpt "KeyError: chosen" stats.chosen
    if chosen = "resign".toList then do
      let best ← liftOpt "KeyError: best" stats.best
      pure ({ stats with chosen := some best }, move_list, warnings)
    else
      pure (stats, move_list, warnings)

/-- ray.py `CLI.parse` (lines 322-422): scan stderr, extract the chosen move
from stdout, then assemble the final (stats, move_list) — plus the warnings
that were printed. -/
def parse (m : RayMatchers) (board_size : ℕ) (is_handicap_game : Bool)
    (history : List PlayCmd) (stdout stderr : List (List Char)) :
    Except String (Stats × List CandidateMove × List String) := do
  let sc ← scanStderr m board_size is_handicap_game history stderr
  let stats ← parseChosen m board_size stdout sc.stats
  parseFinalize { sc with stats := stats }

/-! ### C1: candidate ordering and filtering -/

lemma insertDescBy_const (c : ℕ) (a : CandidateMove) (l : List CandidateMove) :
    insertDescBy (fun _ => c) a l = a :: l := by
  cases l with
  | nil => rfl
  | cons b bs => simp [insertDescBy]

/-- A sort whose key is constant is the identity (stability). -/
lemma sortedDescBy_const (c : ℕ) (l : List CandidateMove) :
    sortedDescBy (fun _ => c) l = l := by
  induction l with
  | nil => rfl
  | cons a as ih => rw [sortedDescBy, ih, insertDescBy_const]

lemma except_pure_eq_ok {ε α : Type} (a : α) : (pure a : Except ε α) = Except.ok a := rfl

lemma except_ok_bind {ε α β : Type} (a : α) (f : α → Except ε β) :
    (Except.ok a : Except ε α) >>= f = f a := rfl

lemma except_error_bind {ε α β : Type} (e : ε) (f : α → Except ε β) :
    (Except.error e : Except ε α) >>= f = Except.error e := rfl

lemma enumFrom_filter_keep (rest : List CandidateMove) :
    ∀ k, k ≠ 0 →
      ((List.enumFrom k rest).filter (fun p => p.1 = 0 ∨ 0 < p.2.visits)).map Prod.snd
        = rest.filter (fun mv => 0 < mv.visits) := by
  induction rest with
  | nil => intro k _; rfl
  | cons a as ih =>
    intro k hk
    have ih2 := ih (k + 1) (by omega)
    by_cases hv : 0 < a.visits <;>
      simp_all [List.enumFrom, List.filter_cons]

/-- The candidate filter of ray.py line 416: keep index 0 and every
positive-visit candidate. -/
lemma enum_filter_keep (ml : List CandidateMove) :
    ((ml.enum.filter (fun p => p.1 = 0 ∨ 0 < p.2.visits)).map Prod.snd)
      = match ml with
        | [] => []
        | a :: rest => a :: rest.filter (fun mv => 0 < mv.visits) := by
  cases ml with
  | nil => rfl
  | cons a rest =>
    have h := enumFrom_filter_keep rest 1 (by omega)
    show ((List.enumFrom 0 (a :: rest)).filter _).map _ = _
    rw [List.enumFrom, List.filter_cons]
    simp_all

/-- C1 (amended): whenever the non-book branch of parse's assembly runs with
the best and chosen statistics present (and the chosen move is not "resign"),
the returned candidate list is the parsed list in its **original** order with
every candidate after position 0 having zero visits dropped and position 0
always retained — no reordering happens, because the sort key lambda of
ray.py line 414 ignores its parameter and evaluates the leaked loop variable
`info`, so every element gets the same key and the stable sort is the
identity. -/
theorem C1_amended_order (sc : ScanState) (b c : List Char)
    (hbr : ¬(sc.stats.bookmoves.isSome ∧ sc.move_list = []))
    (hb : sc.stats.best = some b)
    (hc : sc.stats.chosen = some c)
    (hr : c ≠ "resign".toList) :
    parseFinalize sc = Except.ok (sc.stats,
      (match sc.move_list with
       | [] => []
       | a :: rest => a :: rest.filter (fun mv => 0 < mv.visits)),
      missingWarnings sc.stats) := by
  rw [parseFinalize]
  rw [if_neg hbr]
  cases hml : sc.move_list with
  | nil =>
    simp only [hml, List.getLast?_nil, hb, hc, liftOpt, except_pure_eq_ok, except_ok_bind]
    rw [if_neg hr]
    rfl
  | cons a rest =>
    cases hlast : (a :: rest).getLast? with
    | none =>
      have hns : (a :: rest).getLast?.isSome := List.getLast?_isSome.mpr (by simp)
      rw [hlast] at hns
      simp at hns
    | some info =>
      simp only [hml, hlast, hb, hc, liftOpt, except_pure_eq_ok, except_ok_bind]
      rw [sortedDescBy_const]
      rw [enum_filter_keep]
      rw [if_neg hr]

def c1Move (p : List Char) (v : ℕ) : MoveGroups :=
  { pos := p, visits := v, winrate := 50, mc_winrate := 50, nn_winrate := 50,
    nn_count := 1, policy_prob := 10, pv := [] }

/-- Concrete matchers realizing the spec's candidate-ordering scenario:
candidate visit counts [5, 0, 0, 50] and reported best move equal to the
fourth candidate. -/
def c1Matchers : RayMatchers where
  bookmove := fun _ => none
  status := fun _ => none
  move := fun line =>
    if line = "m1".toList then some (c1Move ("a1".toList) 5)
    else if line = "m2".toList then some (c1Move ("b1".toList) 0)
    else if line = "m3".toList then some (c1Move ("c1".toList) 0)
    else if line = "m4".toList then some (c1Move ("d1".toList) 50)
    else none
  best := fun line => if line = "best".toList then some (60, "d1".toList) else none
  stats := fun line => if line = "vis".toList then some 1000 else none
  finished := fun s => if s = "out".toList then some ("d1".toList) else none

/-- C1 counterexample: with candidate visit counts [5, 0, 0, 50] and the
reported best move equal to the fourth candidate ("d1", record coordinate
"ds"), parse returns the candidates in their original order — [first, fourth],
visits [5, 50] — so the output does **not** start with the best-move candidate
and no zero-visit candidate survives (the claim predicts best-first order and
exactly one zero-visit survivor). -/
theorem C1_counterexample :
    (parse c1Matchers 19 false [] ["out".toList]
        ["m1".toList, "m2".toList, "m3".toList, "m4".toList,
         "================".toList, "best".toList, "vis".toList]).map
      (fun r => (r.2.1.map CandidateMove.pos, r.2.1.map CandidateMove.visits))
      = Except.ok (["as".toList, "ds".toList], [5, 50])
    ∧ "as".toList ≠ "ds".toList := by
  constructor
  · rfl
  · decide

/-- C1 witness: the amended ordering theorem applied to the scan state of the
[5, 0, 0, 50] scenario. -/
def c1Scan : ScanState :=
  { finished := true, summarized := true,
    stats := { best := some ("ds".toList), winrate := some 0.6,
               visits := some 1000, chosen := some ("ds".toList) },
    move_list :=
      [{ pos := "as".toList, visits := 5 }, { pos := "bs".toList, visits := 0 },
       { pos := "cs".toList, visits := 0 }, { pos := "ds".toList, visits := 50 }] }

/-- C1 witness: at the concrete scan state of the [5, 0, 0, 50] scenario, the
assembly keeps the parsed order and drops the later zero-visit candidates. -/
theorem C1_witness :
    parseFinalize c1Scan = Except.ok (c1Scan.stats,
      (match c1Scan.move_list with
       | [] => []
       | a :: rest => a :: rest.filter (fun mv => 0 < mv.visits)),
      missingWarnings c1Scan.stats) :=
  C1_amended_order c1Scan ("ds".toList) ("ds".toList)
    (by decide) (by decide) (by decide) (by decide)

/-! ### C5: win-rate orientation -/

/-- Matchers for the win-rate-flip scenario: one status line carrying raw win
rates 0.7 and 0.6, and one chosen-move stdout line. -/
def c5Matchers : RayMatchers where
  bookmove := fun _ => none
  status := fun line =>
    if line = "status".toList then some (0.7, 0.6, "6.5".toList) else none
  move := fun _ => none
  best := fun _ => none
  stats := fun _ => none
  finished := fun s => if s = "out d1".toList then some ("d1".toList) else none

/-- C5 counterexample: a raw engine win rate of 0.7 reported while **black**
is to move is stored unchanged (0.7) by parse — not 0.3 as claimed; the flip
to the complement happens when white is to move. -/
theorem C5_counterexample :
    (parse c5Matchers 19 false [] ["out d1".toList] ["status".toList]).map
        (fun r => r.1.mc_winrate)
      = Except.ok (some 0.7)
    ∧ (0.7 : ℚ) ≠ 0.3 := by
  constructor
  · rfl
  · norm_num

/-- C5 (amended): every win rate a scan step extracts goes through the single
flip rule of `flip_winrate`, whose direction is: the raw value is replaced by
its complement exactly when **white** is to move, and kept unchanged when
black is to move — shown here for the two status-line win rates. -/
theorem C5_amended_flip (m : RayMatchers) (bs : ℕ) (hc : Bool)
    (hist : List PlayCmd) (sc : ScanState) (raw : List Char)
    (w1 w2 : ℚ) (mar : List Char)
    (hstat : m.status (pyStrip raw) = some (w1, w2, mar))
    (hmove : m.move (pyStrip raw) = none)
    (hbest : m.best (pyStrip raw) = none) :
    ∃ sc2, parseLine m bs hc hist sc raw = Except.ok sc2
      ∧ sc2.stats.mc_winrate
          = some (if whose_turn hc hist = Color.white then 1 - w1 else w1)
      ∧ sc2.stats.nn_winrate
          = some (if whose_turn hc hist = Color.white then 1 - w2 else w2) := by
  simp only [parseLine, hstat, hmove, hbest, except_pure_eq_ok, except_ok_bind, flip_winrate]
  repeat' split
  all_goals exact ⟨_, rfl, by simp, by simp⟩

/-- C5 witness: the amended flip theorem at the 0.7/0.6 status line with
black to move (empty history, no handicap): both win rates pass through
unchanged. -/
theorem C5_witness :
    ∃ sc2, parseLine c5Matchers 19 false [] {} ("status".toList) = Except.ok sc2
      ∧ sc2.stats.mc_winrate
          = some (if whose_turn false [] = Color.white then 1 - 0.7 else 0.7)
      ∧ sc2.stats.nn_winrate
          = some (if whose_turn false [] = Color.white then 1 - 0.6 else 0.6) :=
  C5_amended_flip c5Matchers 19 false [] {} ("status".toList) 0.7 0.6 ("6.5".toList)
    (by rfl) (by rfl) (by rfl)

/-! ### C6: tolerance of missing statistics -/

/-- Matchers under which no line matches any pattern. -/
def noMatch : RayMatchers where
  bookmove := fun _ => none
  status := fun _ => none
  move := fun _ => none
  best := fun _ => none
  stats := fun _ => none
  finished := fun _ => none

/-- C6 counterexample: on entirely empty engine output every statistic is
missing and parse **raises** (KeyError on stats["chosen"], ray.py line 419)
instead of returning a partially populated result — refuting the claim that a
missing chosen-move statistic only produces a logged warning. -/
theorem C6_counterexample :
    parse noMatch 19 false [] [] [] = Except.error "KeyError: chosen" := by rfl

/-- C6 (amended): parse's final assembly returns without raising **iff** the
chosen statistic is present and — unless the synthetic book branch runs — the
best statistic is present whenever the candidate list is nonempty or the
chosen move is "resign".  Absence of the mc_winrate, margin, winrate or
visits statistics alone never causes a failure; they are only reported as
warnings. -/
theorem C6_amended_no_raise (sc : ScanState) :
    (∃ r, parseFinalize sc = Except.ok r)
      ↔ (sc.stats.chosen.isSome = true
          ∧ ((sc.stats.bookmoves.isSome = true ∧ sc.move_list = [])
             ∨ ((sc.move_list = [] ∨ sc.stats.best.isSome = true)
                ∧ (sc.stats.chosen = some ("resign".toList)
                    → sc.stats.best.isSome = true)))) := by
  rw [parseFinalize]
  by_cases hA : (sc.stats.bookmoves.isSome = true ∧ sc.move_list = [])
  · rw [if_pos hA]
    cases hch : sc.stats.chosen with
    | none => simp_all [liftOpt]
    | some c => simp_all [liftOpt, except_pure_eq_ok, except_ok_bind, except_error_bind]
  · rw [if_neg hA]
    cases hml : sc.move_list with
    | nil =>
      cases hch : sc.stats.chosen with
      | none => simp_all [liftOpt, except_pure_eq_ok, except_ok_bind, except_error_bind]
      | some c =>
        by_cases hres : c = "resign".toList
        · cases hbst : sc.stats.best with
          | none =>
            simp_all [liftOpt, except_pure_eq_ok, except_ok_bind, except_error_bind]
          | some b =>
            simp_all [liftOpt, except_pure_eq_ok, except_ok_bind, except_error_bind]
        · simp_all [liftOpt, except_pure_eq_ok, except_ok_bind, except_error_bind]
    | cons a rest =>
      cases hlast : (a :: rest).getLast? with
      | none =>
        have hns : (a :: rest).getLast?.isSome := List.getLast?_isSome.mpr (by simp)
        rw [hlast] at hns
        simp at hns
      | some info =>
        cases hbst : sc.stats.best with
        | none => simp_all [liftOpt, except_pure_eq_ok, except_ok_bind, except_error_bind]
        | some b =>
          cases hch : sc.stats.chosen with
          | none => simp_all [liftOpt, except_pure_eq_ok, except_ok_bind, except_error_bind]
          | some c =>
            by_cases hres : c = "resign".toList
            · simp_all [liftOpt, except_pure_eq_ok, except_ok_bind, except_error_bind]
            · simp_all [liftOpt, except_pure_eq_ok, except_ok_bind, except_error_bind]

/-- C6 witness: a scan state with only the chosen statistic present (win
rate, visits, margin, best all missing) on which the assembly succeeds. -/
theorem C6_witness :
    ∃ r, parseFinalize
        { finished := true, summarized := false,
          stats := { chosen := some ("dd".toList) }, move_list := [] }
      = Except.ok r :=
  (C6_amended_no_raise _).mpr (by refine ⟨rfl, Or.inr ⟨Or.inl rfl, ?_⟩⟩; intro h; simp at h)

/-! ### C8: send_command acknowledgement polling -/

/-- Python `'=' in s`. -/
def containsEq (s : List Char) : Bool := s.contains '='

/-- ray.py `CLI.send_command` (lines 202-237) after the command has been
written: poll `readline()` on the stdout queue, counting lines containing the
GTP success marker; an empty read breaks the inner loop and costs one of the
`timeout` retries.  `reads` holds the successive `readline()` results; once
it is exhausted the queue stays empty, so the remaining retries tick away and
the call fails.  Returns true for a successful return, false for the raised
exception. -/
def sendLoop (expected timeout : ℕ) : List (List Char) → ℕ → ℕ → Bool
  | [], _, _ => false
  | s :: rest, tries, succ =>
    if containsEq s then
      if expected ≤ succ + 1 then true
      else sendLoop expected timeout rest tries (succ + 1)
    else if s = [] then
      if timeout < tries + 1 then false
      else sendLoop expected timeout rest (tries + 1) succ
    else
      sendLoop expected timeout rest tries succ

/-- ray.py `CLI.send_command` as an Except, with the timeout of 200 retries
and the exception message of line 237. -/
def send_command (cmd : List Char) (expected_success_count : ℕ)
    (reads : List (List Char)) : Except (List Char) Unit :=
  if sendLoop expected_success_count 200 reads 0 0 then Except.ok ()
  else Except.error
    ("Failed to send command \x27".toList ++ cmd ++ "\x27 to Ray".toList)

/-- The prefix of the readline results the polling loop can observe: an empty
read consumes one unit of retry budget; the empty read on which the budget
runs out ends the prefix. -/
def takeBudget : ℕ → List (List Char) → List (List Char)
  | _, [] => []
  | b, s :: rest =>
    if s = [] then
      if b ≤ 1 then [] else takeBudget (b - 1) rest
    else s :: takeBudget b rest

/-- Number of acknowledgement lines (lines containing the success marker). -/
def countAcks (l : List (List Char)) : ℕ := (l.filter containsEq).length

lemma sendLoop_true_iff (expected timeout : ℕ) :
    ∀ (reads : List (List Char)) (tries succ : ℕ), tries ≤ timeout → succ < expected →
      (sendLoop expected timeout reads tries succ = true
        ↔ expected ≤ succ + countAcks (takeBudget (timeout + 1 - tries) reads)) := by
  intro reads
  induction reads with
  | nil =>
    intro tries succ htr hsc
    simp [sendLoop, takeBudget, countAcks]
    omega
  | cons s rest ih =>
    intro tries succ htr hsc
    simp only [sendLoop, takeBudget, countAcks] at *
    by_cases hceq : containsEq s = true
    · have hne : ¬ s = [] := by
        intro h
        rw [h] at hceq
        simp [containsEq] at hceq
      simp only [if_pos hceq, if_neg hne, List.filter_cons, List.length_cons]
      by_cases hdone : expected ≤ succ + 1
      · simp only [if_pos hdone]
        constructor
        · intro _; omega
        · intro _; trivial
      · simp only [if_neg hdone]
        rw [ih tries (succ + 1) htr (by omega)]
        omega
    · simp only [if_neg hceq]
      by_cases hemp : s = []
      · simp only [if_pos hemp]
        by_cases hstop : timeout < tries + 1
        · have hb : timeout + 1 - tries ≤ 1 := by omega
          simp only [if_pos hstop, if_pos hb, List.filter_nil, List.length_nil, Nat.add_zero]
          constructor
          · intro h; exact absurd h (by simp)
          · intro h; exact absurd h (by omega)
        · have hb : ¬ (timeout + 1 - tries ≤ 1) := by omega
          have harith : timeout + 1 - tries - 1 = timeout + 1 - (tries + 1) := by omega
          simp only [if_neg hstop, if_neg hb, harith]
          exact ih (tries + 1) succ (by omega) hsc
      · simp only [if_neg hemp, List.filter_cons, if_neg hceq]
        exact ih tries succ htr hsc

/-- C8: after writing the command, `send_command` returns successfully iff the
number of acknowledgement lines (lines containing the marker character)
among the reads observable within the 200-retry polling budget reaches
`expected_success_count`; otherwise it raises an exception whose message
names the failed command. -/
theorem C8_send_command (cmd : List Char) (expected : ℕ) (reads : List (List Char))
    (hexp : 1 ≤ expected) :
    send_command cmd expected reads
      = (if expected ≤ countAcks (takeBudget 201 reads) then Except.ok ()
         else Except.error
           ("Failed to send command \x27".toList ++ cmd ++ "\x27 to Ray".toList)) := by
  rw [send_command]
  have h := sendLoop_true_iff expected 200 reads 0 0 (by omega) (by omega)
  have h201 : 200 + 1 - 0 = 201 := by omega
  rw [h201] at h
  by_cases hc : expected ≤ countAcks (takeBudget 201 reads)
  · rw [if_pos hc, if_pos (h.mpr (by omega))]
  · rw [if_neg hc]
    have : sendLoop expected 200 reads 0 0 ≠ true := by
      intro ht
      exact hc (by have := h.mp ht; omega)
    rw [if_neg this]

/-- C8 witness: sending "clear_board" expecting one acknowledgement, with a
single "= " line queued, returns successfully. -/
theorem C8_witness :
    send_command ("clear_board".toList) 1 ["= ".toList] = Except.ok () := by
  rw [C8_send_command ("clear_board".toList) 1 ["= ".toList] (by omega)]
  rfl

/-! ### C9: the analysis cache -/

def colorChar : Color → Char
  | Color.black => 'b'
  | Color.white => 'w'

/-- ray.py `CLI.history_hash` (lines 142-153): the byte string fed to md5 —
for each history command "play <color> <pos>", the first letter of the color
name followed by the position.  The md5 hex digest is modeled by the hashed
byte string itself (an abstract injective digest). -/
def history_hash (history : List PlayCmd) : List Char :=
  history.foldl (fun acc cmd => acc ++ (colorChar cmd.color :: cmd.pos)) []

/-- The checkpoint filename "analyze_<hash>_<seconds>sec" (analyze.py line
10), as its two varying components. -/
structure CkptKey where
  hash : List Char
  seconds : ℕ
deriving DecidableEq

/-- One engine interaction issued during a cache miss (reset, history replay,
analysis); a cache hit issues none. -/
inductive EngineOp
  | reset
  | goToPosition (history : List PlayCmd)
  | analyze (seconds : ℕ)
deriving DecidableEq

/-- The checkpoint directory: filename ↦ pickled (stats, move list) pair. -/
def CkptStore : Type := List (CkptKey × (Stats × List CandidateMove))

def lookupStore : CkptStore → CkptKey → Option (Stats × List CandidateMove)
  | [], _ => none
  | (k, v) :: rest, key => if k = key then some v else lookupStore rest key

/-- analyzetools/analyze.py `do_analyze` (lines 9-31).  The engine round trip
(leela.reset(); leela.go_to_position(); leela.analyze(seconds)) is abstracted
as the pure oracle `engine` from the replayed history and think time to the
parsed result, and the operations issued to the engine process are recorded.
Returns ((stats, move_list), skipped, updated store, engine operations). -/
def do_analyze (engine : List PlayCmd → ℕ → Stats × List CandidateMove)
    (history : List PlayCmd) (seconds : ℕ) (skip_checkpoints : Bool)
    (store : CkptStore) :
    (Stats × List CandidateMove) × Bool × CkptStore × List EngineOp :=
  let key : CkptKey := { hash := history_hash history, seconds := seconds }
  match lookupStore store key, skip_checkpoints with
  | some v, false => (v, true, store, [])
  | some _, true =>
    let r := engine history seconds
    (r, false, ((key, r) :: store : CkptStore),
     [EngineOp.reset, EngineOp.goToPosition history, EngineOp.analyze seconds])
  | none, _ =>
    let r := engine history seconds
    (r, false, ((key, r) :: store : CkptStore),
     [EngineOp.reset, EngineOp.goToPosition history, EngineOp.analyze seconds])

/-- C9: with checkpoint skipping disabled — on a hit of the key derived from
the history hash and think time, do_analyze returns the stored pair and
issues no engine operation; on a miss it resets the engine, replays the
history, analyzes, and stores exactly the returned pair under that key; and a
second call with unchanged history and think time issues no engine operation
and returns exactly what the first call returned. -/
theorem C9_cache (engine : List PlayCmd → ℕ → Stats × List CandidateMove)
    (history : List PlayCmd) (seconds : ℕ) (store : CkptStore) :
    (∀ v, lookupStore store { hash := history_hash history, seconds := seconds } = some v →
      do_analyze engine history seconds false store = (v, true, store, []))
    ∧ (lookupStore store { hash := history_hash history, seconds := seconds } = none →
      do_analyze engine history seconds false store
        = (engine history seconds, false,
           (({ hash := history_hash history, seconds := seconds }, engine history seconds)
             :: store : CkptStore),
           [EngineOp.reset, EngineOp.goToPosition history, EngineOp.analyze seconds]))
    ∧ ((do_analyze engine history seconds false
          (do_analyze engine history seconds false store).2.2.1).1
        = (do_analyze engine history seconds false store).1
      ∧ (do_analyze engine history seconds false
          (do_analyze engine history seconds false store).2.2.1).2.2.2 = []) := by
  refine ⟨?_, ?_, ?_⟩
  · intro v hv
    simp only [do_analyze, hv]
  · intro hv
    simp only [do_analyze, hv]
  · cases hv : lookupStore store { hash := history_hash history, seconds := seconds } with
    | some v =>
      simp [do_analyze, hv]
    | none =>
      simp [do_analyze, hv, lookupStore]

def c9Engine : List PlayCmd → ℕ → Stats × List CandidateMove := fun _ _ => ({}, [])

def c9Hist : List PlayCmd := [{ color := Color.black, pos := "c3".toList }]

/-- C9 witness: a first call on an empty checkpoint store misses, performs the
reset / replay / analyze round trip and stores the returned pair. -/
theorem C9_witness :
    do_analyze c9Engine c9Hist 5 false []
      = (c9Engine c9Hist 5, false,
         (({ hash := history_hash c9Hist, seconds := 5 }, c9Engine c9Hist 5)
           :: ([] : CkptStore) : CkptStore),
         [EngineOp.reset, EngineOp.goToPosition c9Hist, EngineOp.analyze 5]) :=
  (C9_cache c9Engine c9Hist 5 []).2.1 rfl

/-! ## Variation tree expansion (analyzetools/analyze.py do_variations) -/

/-- A node of the variation tree: the Python dict of analyze.py lines 45-46
and 77-78.  The children slots hold ids into the node store; `none` models
the Python None slot for the skipped real-game move. -/
structure VNode where
  children : List (Option ℕ)
  is_root : Bool
  history : List (List Char)
  explored : Bool
  prob : ℚ
  stats : Stats
  move_list : List CandidateMove
  color : Color
deriving DecidableEq

/-- The tree and worklist state: the node store (ids are list indices and
model Python object identity; the root is id 0) plus the leaves list. -/
structure VState where
  nodes : List VNode
  leaves : List ℕ
deriving DecidableEq

/-- analyze.py `child_prob_raw` (lines 51-58); the `i` parameter is unused in
the source as well, and `move["visits"] ** 1.0` is the visit count itself. -/
def child_prob_raw (rootcolor nodeColor : Color) (i : ℕ) (move : CandidateMove) : ℚ :=
  if move.is_book then 1.0
  else if nodeColor = rootcolor then (move.visits : ℚ)
  else (move.policy_prob + (move.visits : ℚ)) / 2.0

/-- The probsum accumulation of analyze.py lines 63-65. -/
def probsum (rootcolor nodeColor : Color) (ml : List CandidateMove) : ℚ :=
  ml.enum.foldl (fun acc p => acc + child_prob_raw rootcolor nodeColor p.1 p.2) 0

/-- One iteration of the child-creation loop of analyze.py lines 67-80,
carried on (state, children slots accumulated so far): skip the real game
move at the root (appending the None slot), otherwise create the child node
with probability `node.prob * child_prob(i, move)` and append it to the node
store and to the leaves.  Dividing by a zero probsum is Python
ZeroDivisionError. -/
def expandStep (rootcolor : Color) (game_move : List Char) (node : VNode) (ps : ℚ)
    (acc : VState × List (Option ℕ)) (im : ℕ × CandidateMove) :
    Except String (VState × List (Option ℕ)) :=
  let st := acc.1
  let slots := acc.2
  let i := im.1
  let move := im.2
  if node.is_root = true ∧ move.pos = game_move then
    Except.ok (st, slots ++ [none])
  else if ps = 0 then Except.error "ZeroDivisionError"
  else
    let prob := node.prob * (child_prob_raw rootcolor node.color i move / ps)
    let child : VNode :=
      { children := [], is_root := false, history := node.history ++ [move.pos],
        explored := false, prob := prob, stats := {}, move_list := [],
        color := node.color.other }
    let cid := st.nodes.length
    Except.ok ({ nodes := st.nodes ++ [child], leaves := st.leaves ++ [cid] },
               slots ++ [some cid])

/-- analyze.py `do_variations.expand` (lines 48-89) on the node with id nid:
compute probsum over the whole candidate list, run the child-creation loop,
then store the children slots, the analysis results and the explored flag on
the node, and delete the first leaves entry that `is` the node (ids model
identity). -/
def expand (rootcolor : Color) (game_move : List Char) (nid : ℕ)
    (stats : Stats) (ml : List CandidateMove) (st : VState) :
    Except String VState :=
  match st.nodes.get? nid with
  | none => Except.error "invalid node id"
  | some node => do
    let ps := probsum rootcolor node.color ml
    let r ← ml.enum.foldlM (expandStep rootcolor game_move node ps) (st, [])
    let node2 : VNode :=
      { node with children := r.2, stats := stats, move_list := ml, explored := true }
    Except.ok { nodes := r.1.nodes.set nid node2, leaves := r.1.leaves.erase nid }

/-- The reaching probability of a node id (for the max-by-key selection). -/
def nodeProb (st : VState) (id : ℕ) : ℚ :=
  match st.nodes.get? id with
  | some n => n.prob
  | none => 0

/-- Python `max(leaves, key=prob)`: the first element with maximal key. -/
def maxProbLeaf (st : VState) : ℕ :=
  match st.leaves with
  | [] => 0
  | a :: rest =>
    rest.foldl (fun acc x => if nodeProb st acc < nodeProb st x then x else acc) a

/-- analyze.py `do_variations.search` (lines 91-98): replay the node's
history into the engine (bookkeeping with no effect on the tree), analyze
through the cache — abstracted as the pure `oracle` from the node's history
to the analysis result — expand, and pop the history back. -/
def searchStep (oracle : List (List Char) → Stats × List CandidateMove)
    (rootcolor : Color) (game_move : List Char) (nid : ℕ) (st : VState) :
    Except String VState :=
  match st.nodes.get? nid with
  | none => Except.error "invalid node id"
  | some node =>
    let r := oracle node.history
    expand rootcolor game_move nid r.1 r.2 st

/-- The fixed-budget selection loop of analyze.py lines 101-104, counting the
expansions performed: each of the `n` iterations expands the
maximum-probability leaf if any leaf remains. -/
def variationsLoop (oracle : List (List Char) → Stats × List CandidateMove)
    (rootcolor : Color) (game_move : List Char) :
    ℕ → VState → ℕ → Except String (VState × ℕ)
  | 0, st, cnt => Except.ok (st, cnt)
  | n + 1, st, cnt =>
    if st.leaves = [] then variationsLoop oracle rootcolor game_move n st cnt
    else do
      let st2 ← searchStep oracle rootcolor game_move (maxProbLeaf st) st
      variationsLoop oracle rootcolor game_move n st2 (cnt + 1)

/-- The synthetic root node of analyze.py lines 45-46. -/
def rootTree (rootcolor : Color) (stats : Stats) (move_list : List CandidateMove) : VNode :=
  { children := [], is_root := true, history := [], explored := false,
    prob := 1.0, stats := stats, move_list := move_list, color := rootcolor }

/-- The initial tree state: the root alone, with an empty leaves list. -/
def rootState (rootcolor : Color) (stats : Stats) (move_list : List CandidateMove) : VState :=
  { nodes := [rootTree rootcolor stats move_list], leaves := [] }

/-- analyze.py `do_variations` (lines 36-104): early exit (`none`, the Python
early return) on a book root or an empty candidate list; otherwise build the
synthetic root (probability 1.0), expand it with the given analysis, and run
the budgeted loop.  The recording walk (lines 106-164) only reads the tree
and is not modeled. -/
def do_variations (oracle : List (List Char) → Stats × List CandidateMove)
    (rootcolor : Color) (game_move : List Char)
    (stats : Stats) (move_list : List CandidateMove) (nodes_per_variation : ℕ) :
    Option (Except String (VState × ℕ)) :=
  if stats.bookmoves.isSome ∨ move_list.length ≤ 0 then none
  else
    some (do
      let st1 ← expand rootcolor game_move 0 stats move_list
        (rootState rootcolor stats move_list)
      variationsLoop oracle rootcolor game_move nodes_per_variation st1 0)

/-- Shape specification of the child-creation loop: on success, the node
store and the leaves list extend on the right; every appended node has the
shape of analyze.py lines 73-80 for some non-skipped candidate in the
processed list, and every appended leaf id is fresh and in range. -/
lemma expandFold_state_spec (rc : Color) (gm : List Char) (node : VNode) (ps : ℚ) :
    ∀ (L : List (ℕ × CandidateMove)) (st : VState) (slots : List (Option ℕ))
      (out : VState × List (Option ℕ)),
      List.foldlM (expandStep rc gm node ps) (st, slots) L = Except.ok out →
      (∃ new : List VNode,
        out.1.nodes = st.nodes ++ new
        ∧ ∀ c ∈ new, c.is_root = false ∧ c.explored = false ∧ c.children = []
            ∧ c.color = node.color.other
            ∧ ∃ p ∈ L, c.history = node.history ++ [p.2.pos]
                ∧ ¬(node.is_root = true ∧ p.2.pos = gm)
                ∧ ps ≠ 0
                ∧ c.prob = node.prob * (child_prob_raw rc node.color p.1 p.2 / ps))
      ∧ (∃ newIds : List ℕ,
        out.1.leaves = st.leaves ++ newIds
        ∧ ∀ id ∈ newIds, st.nodes.length ≤ id ∧ id < out.1.nodes.length) := by
  intro L
  induction L with
  | nil =>
    intro st slots out hout
    simp only [List.foldlM] at hout
    have heq : (st, slots) = out := by
      simpa [except_pure_eq_ok] using hout
    subst heq
    exact ⟨⟨[], by simp, by simp⟩, ⟨[], by simp, by simp⟩⟩
  | cons p L ih =>
    intro st slots out hout
    simp only [List.foldlM] at hout
    by_cases hskip : node.is_root = true ∧ p.2.pos = gm
    · rw [expandStep, if_pos hskip] at hout
      simp only [except_ok_bind] at hout
      obtain ⟨⟨new, hn1, hn2⟩, ⟨ids, hl1, hl2⟩⟩ := ih st (slots ++ [none]) out hout
      refine ⟨⟨new, hn1, ?_⟩, ⟨ids, hl1, hl2⟩⟩
      intro c hc
      obtain ⟨h1, h2, h3, h4, q, hq, h5⟩ := hn2 c hc
      exact ⟨h1, h2, h3, h4, q, List.mem_cons_of_mem _ hq, h5⟩
    · rw [expandStep, if_neg hskip] at hout
      by_cases hps : ps = 0
      · rw [if_pos hps] at hout
        simp [except_error_bind] at hout
      · rw [if_neg hps] at hout
        simp only [except_ok_bind] at hout
        obtain ⟨⟨new, hn1, hn2⟩, ⟨ids, hl1, hl2⟩⟩ := ih _ _ out hout
        simp only at hn1 hl1 hl2
        refine ⟨⟨(⟨[], false, node.history ++ [p.2.pos], false,
            node.prob * (child_prob_raw rc node.color p.1 p.2 / ps),
            {}, [], node.color.other⟩ : VNode) :: new, ?_, ?_⟩,
          ⟨st.nodes.length :: ids, ?_, ?_⟩⟩
        · rw [hn1]
          simp
        · intro c hc
          rcases List.mem_cons.mp hc with hc | hc
          · subst hc
            exact ⟨rfl, rfl, rfl, rfl, p, List.mem_cons_self _ _, rfl, hskip, hps, rfl⟩
          · obtain ⟨h1, h2, h3, h4, q, hq, h5⟩ := hn2 c hc
            exact ⟨h1, h2, h3, h4, q, List.mem_cons_of_mem _ hq, h5⟩
        · rw [hl1]
          simp
        · intro id hid
          rcases List.mem_cons.mp hid with hid | hid
          · subst hid
            constructor
            · exact le_refl _
            · rw [hn1]
              simp
          · obtain ⟨h1, h2⟩ := hl2 id hid
            constructor
            · simp at h1
              omega
            · exact h2

lemma take_pop {α : Type} (l s : List α) (x : α)
    (h : l.take (s.length + 1) = s ++ [x]) : l.take s.length = s := by
  have h2 : (l.take (s.length + 1)).take s.length = s := by
    rw [h]
    exact List.take_left s [x]
  rw [List.take_take] at h2
  rw [min_eq_left (by omega)] at h2
  exact h2

lemma get_pop {α : Type} (l s : List α) (x : α)
    (h : l.take (s.length + 1) = s ++ [x]) : l.get? s.length = some x := by
  have h1 : (l.take (s.length + 1)).get? s.length = l.get? s.length :=
    List.get?_take (by omega)
  rw [h] at h1
  rw [← h1]
  exact List.get?_concat_length s x

/-- Slots specification of the child-creation loop: on success the slots list
extends the accumulator by one entry per processed candidate — the None slot
exactly for the skipped real-game move, otherwise the id of a freshly created
child node carrying the candidate's normalized probability. -/
lemma expandFold_slots_spec (rc : Color) (gm : List Char) (node : VNode) (ps : ℚ) :
    ∀ (L : List (ℕ × CandidateMove)) (st : VState) (slots : List (Option ℕ))
      (out : VState × List (Option ℕ)),
      List.foldlM (expandStep rc gm node ps) (st, slots) L = Except.ok out →
      out.2.length = slots.length + L.length
      ∧ out.2.take slots.length = slots
      ∧ ∀ k p, L.get? k = some p →
          ((node.is_root = true ∧ p.2.pos = gm) →
            out.2.get? (slots.length + k) = some none)
          ∧ (¬(node.is_root = true ∧ p.2.pos = gm) →
            ∃ cid child, out.2.get? (slots.length + k) = some (some cid)
              ∧ st.nodes.length ≤ cid
              ∧ out.1.nodes.get? cid = some child
              ∧ child.history = node.history ++ [p.2.pos]
              ∧ ps ≠ 0
              ∧ child.prob = node.prob * (child_prob_raw rc node.color p.1 p.2 / ps)) := by
  intro L
  induction L with
  | nil =>
    intro st slots out hout
    simp only [List.foldlM] at hout
    have heq : (st, slots) = out := by simpa [except_pure_eq_ok] using hout
    subst heq
    refine ⟨by simp, by simp, ?_⟩
    intro k p hk
    simp at hk
  | cons p L ih =>
    intro st slots out hout
    simp only [List.foldlM] at hout
    by_cases hskip : node.is_root = true ∧ p.2.pos = gm
    · rw [expandStep, if_pos hskip] at hout
      simp only [except_ok_bind] at hout
      obtain ⟨hlen, htake, hidx⟩ := ih st (slots ++ [none]) out hout
      simp only [List.length_append, List.length_cons, List.length_nil] at hlen
      have htake2 : out.2.take (slots.length + 1) = slots ++ [none] := by
        have := htake
        simp only [List.length_append, List.length_cons, List.length_nil] at this
        exact this
      refine ⟨by simp [List.length_cons]; omega, take_pop _ _ _ htake2, ?_⟩
      intro k q hk
      cases k with
      | zero =>
        simp only [List.get?_cons_zero] at hk
        cases hk
        refine ⟨fun _ => ?_, fun hns => absurd hskip hns⟩
        rw [Nat.add_zero]
        exact get_pop _ _ _ htake2
      | succ j =>
        simp only [List.get?_cons_succ] at hk
        have h := hidx j q hk
        have harith : slots.length + (j + 1) = (slots ++ [none]).length + j := by
          simp
          omega
        rw [harith]
        simpa using h
    · rw [expandStep, if_neg hskip] at hout
      by_cases hps : ps = 0
      · rw [if_pos hps] at hout
        simp [except_error_bind] at hout
      · rw [if_neg hps] at hout
        simp only [except_ok_bind] at hout
        obtain ⟨hlen, htake, hidx⟩ := ih _ _ out hout
        simp only [List.length_append, List.length_cons, List.length_nil] at hlen
        have htake2 : out.2.take (slots.length + 1) = slots ++ [some st.nodes.length] := by
          have := htake
          simp only [List.length_append, List.length_cons, List.length_nil] at this
          exact this
        refine ⟨by simp [List.length_cons]; omega, take_pop _ _ _ htake2, ?_⟩
        intro k q hk
        cases k with
        | zero =>
          simp only [List.get?_cons_zero] at hk
          cases hk
          refine ⟨fun hs => absurd hs hskip, fun _ => ?_⟩
          obtain ⟨⟨new, hn1, _⟩, _⟩ := expandFold_state_spec rc gm node ps L _ _ out hout
          refine ⟨st.nodes.length,
            ⟨[], false, node.history ++ [p.2.pos], false,
              node.prob * (child_prob_raw rc node.color p.1 p.2 / ps),
              {}, [], node.color.other⟩, ?_, le_refl _, ?_, rfl, hps, rfl⟩
          · rw [Nat.add_zero]
            exact get_pop _ _ _ htake2
          · dsimp only at hn1
            rw [hn1, List.get?_append (by simp)]
            exact List.get?_concat_length _ _
        | succ j =>
          simp only [List.get?_cons_succ] at hk
          obtain ⟨hskipc, hcreatec⟩ := hidx j q hk
          have harith : slots.length + (j + 1) = (slots ++ [some st.nodes.length]).length + j := by
            simp
            omega
          rw [harith]
          refine ⟨hskipc, ?_⟩
          intro hns
          obtain ⟨cid, child, a1, a2, a3, a4, a5, a6⟩ := hcreatec hns
          refine ⟨cid, child, a1, ?_, a3, a4, a5, a6⟩
          dsimp only at a2
          simp only [List.length_append, List.length_cons, List.length_nil] at a2
          omega

/-- `(l.enum).get?` in terms of `l.get?`. -/
lemma enumFrom_get? {α : Type} :
    ∀ (l : List α) (k i : ℕ),
      (List.enumFrom k l).get? i = (l.get? i).map (fun a => (k + i, a)) := by
  intro l
  induction l with
  | nil => intro k i; simp [List.enumFrom]
  | cons a as ih =>
    intro k i
    cases i with
    | zero => simp [List.enumFrom]
    | succ j =>
      simp only [List.enumFrom, List.get?_cons_succ, ih (k + 1) j]
      have harith : k + 1 + j = k + (j + 1) := by omega
      simp only [harith]

lemma enum_get? {α : Type} (l : List α) (i : ℕ) :
    l.enum.get? i = (l.get? i).map (fun a => (i, a)) := by
  have := enumFrom_get? l 0 i
  simpa [List.enum] using this

/-- The updated node record produced by expand (analyze.py lines 82-84). -/
def expandedNode (node : VNode) (stats : Stats) (ml : List CandidateMove)
    (slots : List (Option ℕ)) : VNode :=
  { node with children := slots, stats := stats, move_list := ml, explored := true }

/-- Specification of `expand` on a valid node id: the store grows on the
right (old ids keep their nodes, except the expanded one, which keeps its
identity fields and becomes explored with the given analysis attached), the
children slots follow the skip rule and carry the normalized probabilities,
all appended nodes are fresh unexplored children of the expanded node, and
the leaves list gains exactly the created ids and loses the expanded id. -/
lemma expand_spec (rc : Color) (gm : List Char) (nid : ℕ) (stats : Stats)
    (ml : List CandidateMove) (st : VState) (node : VNode) (st2 : VState)
    (hn : st.nodes.get? nid = some node)
    (h : expand rc gm nid stats ml st = Except.ok st2) :
    (st.nodes.length ≤ st2.nodes.length)
    ∧ (∀ j, j < st.nodes.length → j ≠ nid → st2.nodes.get? j = st.nodes.get? j)
    ∧ (∃ node2, st2.nodes.get? nid = some node2
        ∧ node2.is_root = node.is_root ∧ node2.history = node.history
        ∧ node2.prob = node.prob ∧ node2.color = node.color
        ∧ node2.explored = true ∧ node2.stats = stats ∧ node2.move_list = ml
        ∧ node2.children.length = ml.length
        ∧ (∀ k mv, ml.get? k = some mv →
            ((node.is_root = true ∧ mv.pos = gm) →
              node2.children.get? k = some none)
            ∧ (¬(node.is_root = true ∧ mv.pos = gm) →
              ∃ cid child, node2.children.get? k = some (some cid)
                ∧ st.nodes.length ≤ cid
                ∧ st2.nodes.get? cid = some child
                ∧ child.history = node.history ++ [mv.pos]
                ∧ probsum rc node.color ml ≠ 0
                ∧ child.prob = node.prob
                    * (child_prob_raw rc node.color k mv / probsum rc node.color ml))))
    ∧ (∀ j c, st.nodes.length ≤ j → st2.nodes.get? j = some c →
        c.is_root = false ∧ c.explored = false ∧ c.children = []
          ∧ c.color = node.color.other
          ∧ ∃ p : ℕ × CandidateMove, ml.get? p.1 = some p.2
              ∧ c.history = node.history ++ [p.2.pos]
              ∧ ¬(node.is_root = true ∧ p.2.pos = gm)
              ∧ probsum rc node.color ml ≠ 0
              ∧ c.prob = node.prob
                  * (child_prob_raw rc node.color p.1 p.2 / probsum rc node.color ml))
    ∧ (∃ newIds, st2.leaves = (st.leaves ++ newIds).erase nid
        ∧ ∀ id ∈ newIds, st.nodes.length ≤ id ∧ id < st2.nodes.length) := by
  rw [expand, hn] at h
  dsimp only at h
  have hnid : nid < st.nodes.length := by
    by_contra hc
    rw [List.get?_eq_none.mpr (by omega)] at hn
    cases hn
  cases hr : ml.enum.foldlM
      (expandStep rc gm node (probsum rc node.color ml)) (st, ([] : List (Option ℕ))) with
  | error e =>
    rw [hr] at h
    simp [except_error_bind] at h
  | ok out =>
    rw [hr] at h
    simp only [except_ok_bind] at h
    have hst2 : st2
        = { nodes := out.1.nodes.set nid (expandedNode node stats ml out.2),
            leaves := out.1.leaves.erase nid } := by
      cases h
      rfl
    obtain ⟨⟨new, hn1, hn2⟩, ⟨ids, hl1, hl2⟩⟩ :=
      expandFold_state_spec rc gm node (probsum rc node.color ml) ml.enum st [] out hr
    obtain ⟨hslen, _, hsidx⟩ :=
      expandFold_slots_spec rc gm node (probsum rc node.color ml) ml.enum st [] out hr
    simp only [List.length_nil, Nat.zero_add] at hslen hsidx
    have hout_len : st.nodes.length ≤ out.1.nodes.length := by
      rw [hn1]
      simp
    have hnodes2 : st2.nodes
        = out.1.nodes.set nid (expandedNode node stats ml out.2) := by
      rw [hst2]
    have hlen2 : st2.nodes.length = out.1.nodes.length := by
      rw [hnodes2, List.length_set]
    refine ⟨by omega, ?_, ?_, ?_, ?_⟩
    · intro j hj hjne
      rw [hnodes2, List.get?_set_ne _ _ (fun he => hjne he.symm)]
      rw [hn1, List.get?_append hj]
    · have hget : st2.nodes.get? nid = some (expandedNode node stats ml out.2) := by
        rw [hnodes2]
        exact List.get?_set_eq_of_lt _ (by omega)
      refine ⟨_, hget, rfl, rfl, rfl, rfl, rfl, rfl, rfl, ?_, ?_⟩
      · dsimp only [expandedNode]
        rw [hslen, List.enum_length]
      · intro k mv hk
        have hkenum : ml.enum.get? k = some (k, mv) := by
          rw [enum_get?, hk]
          rfl
        obtain ⟨hskip, hcreate⟩ := hsidx k (k, mv) hkenum
        constructor
        · intro hs
          exact hskip hs
        · intro hns
          obtain ⟨cid, child, hslot, hfresh, hcget, hch, hps, hcp⟩ := hcreate hns
          refine ⟨cid, child, hslot, hfresh, ?_, hch, hps, hcp⟩
          rw [hnodes2, List.get?_set_ne _ _ (by omega)]
          exact hcget
    · intro j c hj hc
      rw [hnodes2, List.get?_set_ne _ _ (by omega)] at hc
      rw [hn1] at hc
      rw [List.get?_append_right (by omega)] at hc
      have hmem : c ∈ new := List.get?_mem hc
      obtain ⟨h1, h2, h3, h4, q, hq, h5, h6, h7, h8⟩ := hn2 c hmem
      obtain ⟨kq, hkq⟩ := List.get?_of_mem hq
      rw [enum_get?] at hkq
      cases hql : ml.get? kq with
      | none =>
        rw [hql] at hkq
        cases hkq
      | some mv =>
        rw [hql] at hkq
        simp only [Option.map_some'] at hkq
        cases hkq
        exact ⟨h1, h2, h3, h4, (kq, mv), hql, h5, h6, h7, h8⟩
    · refine ⟨ids, ?_, ?_⟩
      · rw [hst2, hl1]
      · intro id hid
        obtain ⟨ha, hb⟩ := hl2 id hid
        exact ⟨ha, by omega⟩

/-- An element of `l.enum` is `l` indexed at its first component. -/
lemma mem_enum_get {α : Type} {l : List α} {q : ℕ × α} (hq : q ∈ l.enum) :
    l.get? q.1 = some q.2 := by
  obtain ⟨k, hk⟩ := List.get?_of_mem hq
  rw [enum_get?] at hk
  cases hql : l.get? k with
  | none =>
    rw [hql] at hk
    cases hk
  | some a =>
    rw [hql] at hk
    simp only [Option.map_some'] at hk
    cases hk
    exact hql

/-- `probsum` as a list sum. -/
lemma probsum_eq_sum (rc c : Color) (ml : List CandidateMove) :
    probsum rc c ml
      = (ml.enum.map (fun p => child_prob_raw rc c p.1 p.2)).sum := by
  rw [probsum, List.sum_eq_foldl, List.foldl_map]

/-- If every candidate's raw weight is zero then probsum is zero. -/
lemma probsum_zero (rc c : Color) (ml : List CandidateMove)
    (h : ∀ i mv, ml.get? i = some mv → child_prob_raw rc c i mv = 0) :
    probsum rc c ml = 0 := by
  rw [probsum_eq_sum]
  apply List.sum_eq_zero
  intro x hx
  obtain ⟨q, hq, hqx⟩ := List.mem_map.mp hx
  rw [← hqx]
  exact h q.1 q.2 (mem_enum_get hq)

/-- If all raw weights are nonnegative and one is positive, probsum is
positive. -/
lemma probsum_pos (rc c : Color) (ml : List CandidateMove)
    (hnn : ∀ i mv, ml.get? i = some mv → 0 ≤ child_prob_raw rc c i mv)
    (hpos : ∃ i mv, ml.get? i = some mv ∧ 0 < child_prob_raw rc c i mv) :
    0 < probsum rc c ml := by
  obtain ⟨i, mv, hi, hp⟩ := hpos
  have hmem : (i, mv) ∈ ml.enum := by
    have : ml.enum.get? i = some (i, mv) := by
      rw [enum_get?, hi]
      rfl
    exact List.get?_mem this
  have hle : child_prob_raw rc c i mv
      ≤ (ml.enum.map (fun p => child_prob_raw rc c p.1 p.2)).sum := by
    apply List.single_le_sum
    · intro x hx
      obtain ⟨q, hq, hqx⟩ := List.mem_map.mp hx
      rw [← hqx]
      exact hnn q.1 q.2 (mem_enum_get hq)
    · exact List.mem_map_of_mem _ hmem
  rw [probsum_eq_sum]
  exact lt_of_lt_of_le hp hle

/-- With a zero probsum, the child-creation loop raises ZeroDivisionError as
soon as it reaches a candidate that is not skipped. -/
lemma expandFold_zero_error (rc : Color) (gm : List Char) (node : VNode) :
    ∀ (L : List (ℕ × CandidateMove)) (st : VState) (slots : List (Option ℕ)),
      (∃ p ∈ L, ¬(node.is_root = true ∧ p.2.pos = gm)) →
      List.foldlM (expandStep rc gm node 0) (st, slots) L
        = Except.error "ZeroDivisionError" := by
  intro L
  induction L with
  | nil =>
    intro st slots hex
    obtain ⟨p, hp, _⟩ := hex
    cases hp
  | cons p L ih =>
    intro st slots hex
    simp only [List.foldlM]
    by_cases hskip : node.is_root = true ∧ p.2.pos = gm
    · rw [expandStep, if_pos hskip]
      simp only [except_ok_bind]
      apply ih
      obtain ⟨q, hq, hnq⟩ := hex
      rcases List.mem_cons.mp hq with hq | hq
      · subst hq
        exact absurd hskip hnq
      · exact ⟨q, hq, hnq⟩
    · rw [expandStep, if_neg hskip, if_pos rfl]
      rfl
  termination_by L => L.length

/-- With a nonzero probsum, the child-creation loop always succeeds. -/
lemma expandFold_ok (rc : Color) (gm : List Char) (node : VNode) (ps : ℚ)
    (hps : ps ≠ 0) :
    ∀ (L : List (ℕ × CandidateMove)) (st : VState) (slots : List (Option ℕ)),
      ∃ out, List.foldlM (expandStep rc gm node ps) (st, slots) L = Except.ok out := by
  intro L
  induction L with
  | nil =>
    intro st slots
    exact ⟨(st, slots), rfl⟩
  | cons p L ih =>
    intro st slots
    simp only [List.foldlM]
    by_cases hskip : node.is_root = true ∧ p.2.pos = gm
    · rw [expandStep, if_pos hskip]
      simp only [except_ok_bind]
      exact ih _ _
    · rw [expandStep, if_neg hskip, if_neg hps]
      simp only [except_ok_bind]
      exact ih _ _

/-- C10: the normalization in expand is an unguarded division — on a node
whose reached candidates all have raw weight zero the division by the zero
weight sum raises ZeroDivisionError; with nonnegative weights, expansion
succeeds exactly when some candidate has positive raw weight (book moves
count 1.0), so that positive total weight is the safety precondition. -/
theorem C10_division_by_zero (rc : Color) (gm : List Char) (nid : ℕ)
    (stats : Stats) (ml : List CandidateMove) (st : VState) (node : VNode)
    (hn : st.nodes.get? nid = some node) :
    ((∃ i mv, ml.get? i = some mv ∧ ¬(node.is_root = true ∧ mv.pos = gm)) →
      (∀ i mv, ml.get? i = some mv → child_prob_raw rc node.color i mv = 0) →
      expand rc gm nid stats ml st = Except.error "ZeroDivisionError")
    ∧ ((∀ i mv, ml.get? i = some mv → 0 ≤ child_prob_raw rc node.color i mv) →
      (∃ i mv, ml.get? i = some mv ∧ 0 < child_prob_raw rc node.color i mv) →
      ∃ st2, expand rc gm nid stats ml st = Except.ok st2)
    ∧ ((∀ i mv, ml.get? i = some mv → 0 ≤ child_prob_raw rc node.color i mv) →
      (∃ i mv, ml.get? i = some mv ∧ ¬(node.is_root = true ∧ mv.pos = gm)) →
      (∃ st2, expand rc gm nid stats ml st = Except.ok st2) →
      ∃ i mv, ml.get? i = some mv ∧ 0 < child_prob_raw rc node.color i mv) := by
  refine ⟨?_, ?_, ?_⟩
  · intro hreach hzero
    rw [expand, hn]
    dsimp only
    have hz : probsum rc node.color ml = 0 := probsum_zero rc node.color ml hzero
    rw [hz]
    obtain ⟨i, mv, hi, hns⟩ := hreach
    have hmem : (i, mv) ∈ ml.enum := by
      have : ml.enum.get? i = some (i, mv) := by
        rw [enum_get?, hi]
        rfl
      exact List.get?_mem this
    rw [expandFold_zero_error rc gm node ml.enum st [] ⟨(i, mv), hmem, hns⟩]
    rfl
  · intro hnn hpos
    rw [expand, hn]
    dsimp only
    have hp : 0 < probsum rc node.color ml := probsum_pos rc node.color ml hnn hpos
    obtain ⟨out, hout⟩ := expandFold_ok rc gm node (probsum rc node.color ml)
      (ne_of_gt hp) ml.enum st []
    rw [hout]
    exact ⟨_, rfl⟩
  · intro hnn hreach hok
    by_contra hnopos
    push_neg at hnopos
    have hzero : ∀ i mv, ml.get? i = some mv → child_prob_raw rc node.color i mv = 0 := by
      intro i mv hi
      have h1 := hnn i mv hi
      have h2 := hnopos i mv hi
      linarith
    obtain ⟨st2, hst2⟩ := hok
    rw [expand, hn] at hst2
    dsimp only at hst2
    rw [probsum_zero rc node.color ml hzero] at hst2
    obtain ⟨i, mv, hi, hns⟩ := hreach
    have hmem : (i, mv) ∈ ml.enum := by
      have : ml.enum.get? i = some (i, mv) := by
        rw [enum_get?, hi]
        rfl
      exact List.get?_mem this
    rw [expandFold_zero_error rc gm node ml.enum st [] ⟨(i, mv), hmem, hns⟩] at hst2
    cases hst2

def c10Cand : CandidateMove := { pos := "aa".toList, visits := 0 }

def c10Node : VNode :=
  { children := [], is_root := false, history := ["bb".toList], explored := false,
    prob := 1, stats := {}, move_list := [], color := Color.black }

def c10Root : VNode :=
  { children := [some 1], is_root := true, history := [], explored := true,
    prob := 1, stats := {}, move_list := [], color := Color.black }

def c10St : VState := { nodes := [c10Root, c10Node], leaves := [1] }

/-- C10 witness: expanding a non-root node of the root's color whose only
candidate has zero visits (and no book flag) raises ZeroDivisionError. -/
theorem C10_witness :
    expand Color.black ("zz".toList) 1 ({} : Stats) [c10Cand] c10St
      = Except.error "ZeroDivisionError" :=
  (C10_division_by_zero Color.black ("zz".toList) 1 {} [c10Cand] c10St c10Node rfl).1
    ⟨0, c10Cand, rfl, by simp [c10Node, c10Cand]⟩
    (by
      intro i mv hi
      cases i with
      | zero =>
        simp only [List.get?_cons_zero] at hi
        cases hi
        simp [child_prob_raw, c10Cand, c10Node]
      | succ j =>
        simp at hi)

/-- C2 (amended): in do_variations' expand, the raw weight of a candidate is
1.0 for book moves, the visit count iff the **node's color equals the root's
color** — not iff the node is the root: any node an even number of plies
below the root also weights by visit counts — and the policy/visits average
otherwise; each created child's reaching probability is the node's own
probability times its raw weight divided by the sum of raw weights over the
node's whole candidate list. -/
theorem C2_amended_weights (rc : Color) (gm : List Char) (nid : ℕ) (stats : Stats)
    (ml : List CandidateMove) (st : VState) (node : VNode) (st2 : VState)
    (hn : st.nodes.get? nid = some node)
    (h : expand rc gm nid stats ml st = Except.ok st2)
    (k : ℕ) (mv : CandidateMove) (hk : ml.get? k = some mv)
    (hns : ¬(node.is_root = true ∧ mv.pos = gm)) :
    child_prob_raw rc node.color k mv
      = (if mv.is_book then 1.0
         else if node.color = rc then (mv.visits : ℚ)
         else (mv.policy_prob + (mv.visits : ℚ)) / 2.0)
    ∧ ∃ node2 cid child, st2.nodes.get? nid = some node2
        ∧ node2.children.get? k = some (some cid)
        ∧ st2.nodes.get? cid = some child
        ∧ child.prob = node.prob
            * (child_prob_raw rc node.color k mv / probsum rc node.color ml) := by
  obtain ⟨_, _, ⟨node2, hget, _, _, _, _, _, _, _, _, hidx⟩, _, _⟩ :=
    expand_spec rc gm nid stats ml st node st2 hn h
  refine ⟨rfl, ?_⟩
  obtain ⟨_, hcreate⟩ := hidx k mv hk
  obtain ⟨cid, child, hslot, _, hcget, _, _, hcp⟩ := hcreate hns
  exact ⟨node2, cid, child, hget, hslot, hcget, hcp⟩

def c2A : CandidateMove := { pos := "aa".toList, visits := 4, policy_prob := 0 }

def c2B : CandidateMove := { pos := "bb".toList, visits := 0, policy_prob := 1 }

/-- A non-root node that has the root's color (two plies below the root). -/
def c2Parent : VNode :=
  { children := [], is_root := false, history := ["cc".toList], explored := false,
    prob := 1, stats := {}, move_list := [], color := Color.black }

def c2Root : VNode :=
  { children := [some 1], is_root := true, history := [], explored := true,
    prob := 1, stats := {}, move_list := [], color := Color.black }

def c2St : VState := { nodes := [c2Root, c2Parent], leaves := [1] }

lemma c2_probsum : probsum Color.black Color.black [c2A, c2B] = 4 := by
  simp [probsum, List.enum, List.enumFrom, child_prob_raw, c2A, c2B]

lemma c2_expand_ok :
    ∃ st2, expand Color.black ("zz".toList) 1 ({} : Stats) [c2A, c2B] c2St
      = Except.ok st2 := by
  obtain ⟨out, hout⟩ := expandFold_ok Color.black ("zz".toList) c2Parent
    (probsum Color.black c2Parent.color [c2A, c2B])
    (by
      rw [show c2Parent.color = Color.black from rfl, c2_probsum]
      norm_num) ([c2A, c2B].enum) c2St []
  refine ⟨{ nodes := out.1.nodes.set 1 (expandedNode c2Parent {} [c2A, c2B] out.2),
            leaves := out.1.leaves.erase 1 }, ?_⟩
  rw [expand, show c2St.nodes.get? 1 = some c2Parent from rfl]
  dsimp only
  rw [hout]
  simp only [except_ok_bind]
  rfl

/-- C2 counterexample: expanding a concrete **non-root** node whose color
equals the root's color, with candidates (visits 4, policy 0) and (visits 0,
policy 1), yields child reaching probabilities 1 and 0 — the visit-count
weighting — whereas the claimed policy/visits **average** weighting at a
non-root node would give the first child probability 4/5, not 1. -/
theorem C2_counterexample :
    (∃ st2 node2 cidA chA cidB chB,
      expand Color.black ("zz".toList) 1 ({} : Stats) [c2A, c2B] c2St = Except.ok st2
      ∧ st2.nodes.get? 1 = some node2
      ∧ node2.children.get? 0 = some (some cidA)
      ∧ st2.nodes.get? cidA = some chA ∧ chA.prob = 1
      ∧ node2.children.get? 1 = some (some cidB)
      ∧ st2.nodes.get? cidB = some chB ∧ chB.prob = 0)
    ∧ ((c2A.policy_prob + (c2A.visits : ℚ)) / 2)
        / (((c2A.policy_prob + (c2A.visits : ℚ)) / 2)
           + ((c2B.policy_prob + (c2B.visits : ℚ)) / 2)) ≠ 1 := by
  constructor
  · obtain ⟨st2, hok⟩ := c2_expand_ok
    obtain ⟨_, _, ⟨node2, hget, _, _, _, _, _, _, _, _, hidx⟩, _, _⟩ :=
      expand_spec Color.black ("zz".toList) 1 {} [c2A, c2B] c2St c2Parent st2 rfl hok
    obtain ⟨_, hcreate0⟩ := hidx 0 c2A rfl
    obtain ⟨cidA, chA, hslotA, _, hcgetA, _, _, hcpA⟩ :=
      hcreate0 (by simp [c2Parent])
    obtain ⟨_, hcreate1⟩ := hidx 1 c2B rfl
    obtain ⟨cidB, chB, hslotB, _, hcgetB, _, _, hcpB⟩ :=
      hcreate1 (by simp [c2Parent])
    refine ⟨st2, node2, cidA, chA, cidB, chB, hok, hget, hslotA, hcgetA, ?_,
      hslotB, hcgetB, ?_⟩
    · rw [hcpA]
      simp only [show c2Parent.color = Color.black from rfl,
        show c2Parent.prob = 1 from rfl, c2_probsum]
      norm_num [child_prob_raw, c2A]
    · rw [hcpB]
      simp only [show c2Parent.color = Color.black from rfl,
        show c2Parent.prob = 1 from rfl, c2_probsum]
      norm_num [child_prob_raw, c2B]
  · norm_num [c2A, c2B]

/-- C2 witness: the amended weight rule applied to the first candidate of the
concrete non-root, root-colored node. -/
theorem C2_witness :
    ∃ st2, expand Color.black ("zz".toList) 1 ({} : Stats) [c2A, c2B] c2St
        = Except.ok st2
      ∧ (child_prob_raw Color.black c2Parent.color 0 c2A
          = (if c2A.is_book then 1.0
             else if c2Parent.color = Color.black then (c2A.visits : ℚ)
             else (c2A.policy_prob + (c2A.visits : ℚ)) / 2.0)
        ∧ ∃ node2 cid child, st2.nodes.get? 1 = some node2
            ∧ node2.children.get? 0 = some (some cid)
            ∧ st2.nodes.get? cid = some child
            ∧ child.prob = c2Parent.prob
                * (child_prob_raw Color.black c2Parent.color 0 c2A
                   / probsum Color.black c2Parent.color [c2A, c2B])) := by
  obtain ⟨st2, hok⟩ := c2_expand_ok
  exact ⟨st2, hok,
    C2_amended_weights Color.black ("zz".toList) 1 {} [c2A, c2B] c2St c2Parent st2
      rfl hok 0 c2A rfl (by simp [c2Parent])⟩

/-! ### C4: budget and real-game-move exclusion -/

lemma head?_append_left {α : Type} (l l2 : List α) (h : l ≠ []) :
    (l ++ l2).head? = l.head? := by
  cases l with
  | nil => exact absurd rfl h
  | cons a as => rfl

/-- Tree invariants of do_variations maintained through the loop: every
root-flagged node has an empty history, every non-root node has a nonempty
history that does not start with the real game move, and every leaf id is a
valid non-root id. -/
structure TreeInv (gm : List Char) (st : VState) : Prop where
  root_hist : ∀ i n, st.nodes.get? i = some n → n.is_root = true → n.history = []
  nonroot : ∀ i n, st.nodes.get? i = some n → n.is_root = false →
    n.history ≠ [] ∧ n.history.head? ≠ some gm
  leaves_ok : ∀ id ∈ st.leaves, id < st.nodes.length ∧ id ≠ 0

lemma expand_preserves_TreeInv (rc : Color) (gm : List Char) (nid : ℕ)
    (stats : Stats) (ml : List CandidateMove) (st : VState) (node : VNode)
    (st2 : VState) (hn : st.nodes.get? nid = some node)
    (h : expand rc gm nid stats ml st = Except.ok st2)
    (inv : TreeInv gm st) : TreeInv gm st2 := by
  obtain ⟨hlen, hframe, ⟨node2, hget2, hni, hnh, _, _, _, _, _, _, _⟩, hnew,
      ⟨ids2, hl, hlb⟩⟩ :=
    expand_spec rc gm nid stats ml st node st2 hn h
  have hnidlt : nid < st.nodes.length := by
    by_contra hc
    rw [List.get?_eq_none.mpr (by omega)] at hn
    cases hn
  constructor
  · intro i n hi hroot
    by_cases hilt : i < st.nodes.length
    · by_cases hieq : i = nid
      · subst hieq
        rw [hget2] at hi
        cases hi
        rw [hnh]
        exact inv.root_hist i node hn (by rw [← hni]; exact hroot)
      · rw [hframe i hilt hieq] at hi
        exact inv.root_hist i n hi hroot
    · push_neg at hilt
      have hsh := hnew i n hilt hi
      rw [hsh.1] at hroot
      cases hroot
  · intro i n hi hnr
    by_cases hilt : i < st.nodes.length
    · by_cases hieq : i = nid
      · subst hieq
        rw [hget2] at hi
        cases hi
        rw [hnh]
        exact inv.nonroot i node hn (by rw [← hni]; exact hnr)
      · rw [hframe i hilt hieq] at hi
        exact inv.nonroot i n hi hnr
    · push_neg at hilt
      obtain ⟨_, _, _, _, p, hp, hhist, hskip, _, _⟩ := hnew i n hilt hi
      cases hroot : node.is_root with
      | true =>
        have hempty : node.history = [] := inv.root_hist nid node hn hroot
        have hposne : p.2.pos ≠ gm := by
          intro he
          exact hskip ⟨hroot, he⟩
        rw [hhist, hempty]
        constructor
        · simp
        · simpa using hposne
      | false =>
        obtain ⟨hne, hhd⟩ := inv.nonroot nid node hn hroot
        rw [hhist]
        constructor
        · simp
        · rw [head?_append_left _ _ hne]
          exact hhd
  · intro id hid
    rw [hl] at hid
    have hid2 : id ∈ st.leaves ++ ids2 := List.mem_of_mem_erase hid
    rcases List.mem_append.mp hid2 with hid3 | hid3
    · obtain ⟨ha, hb⟩ := inv.leaves_ok id hid3
      exact ⟨by omega, hb⟩
    · obtain ⟨ha, hb⟩ := hlb id hid3
      exact ⟨hb, by omega⟩

/-- The root slots: every candidate of the root whose move equals the real
game move keeps the absent (None) child slot. -/
def RootSlots (gm : List Char) (ml : List CandidateMove) (st : VState) : Prop :=
  ∃ r, st.nodes.get? 0 = some r
    ∧ ∀ k mv, ml.get? k = some mv → mv.pos = gm → r.children.get? k = some none

lemma searchStep_preserves_TreeInv
    (oracle : List (List Char) → Stats × List CandidateMove)
    (rc : Color) (gm : List Char) (nid : ℕ) (st st2 : VState)
    (h : searchStep oracle rc gm nid st = Except.ok st2)
    (inv : TreeInv gm st) : TreeInv gm st2 := by
  rw [searchStep] at h
  cases hg : st.nodes.get? nid with
  | none =>
    rw [hg] at h
    cases h
  | some node =>
    rw [hg] at h
    dsimp only at h
    exact expand_preserves_TreeInv rc gm nid _ _ st node st2 hg h inv

lemma searchStep_preserves_RootSlots
    (oracle : List (List Char) → Stats × List CandidateMove)
    (rc : Color) (gm : List Char) (ml : List CandidateMove) (nid : ℕ)
    (st st2 : VState)
    (h : searchStep oracle rc gm nid st = Except.ok st2)
    (hnz : nid ≠ 0) (rs : RootSlots gm ml st) : RootSlots gm ml st2 := by
  rw [searchStep] at h
  cases hg : st.nodes.get? nid with
  | none =>
    rw [hg] at h
    cases h
  | some node =>
    rw [hg] at h
    dsimp only at h
    obtain ⟨r, hr, hslots⟩ := rs
    obtain ⟨_, hframe, _, _, _⟩ :=
      expand_spec rc gm nid _ _ st node st2 hg h
    have h0 : 0 < st.nodes.length := by
      by_contra hc
      rw [List.get?_eq_none.mpr (by omega)] at hr
      cases hr
    refine ⟨r, ?_, hslots⟩
    rw [hframe 0 h0 (fun he => hnz he.symm)]
    exact hr

lemma foldl_pick_mem (st : VState) :
    ∀ (l : List ℕ) (a : ℕ),
      (l.foldl (fun acc x => if nodeProb st acc < nodeProb st x then x else acc) a) = a
        ∨ (l.foldl (fun acc x => if nodeProb st acc < nodeProb st x then x else acc) a) ∈ l := by
  intro l
  induction l with
  | nil =>
    intro a
    exact Or.inl rfl
  | cons x xs ih =>
    intro a
    simp only [List.foldl]
    rcases ih (if nodeProb st a < nodeProb st x then x else a) with h | h
    · rw [h]
      split
      · right
        exact List.mem_cons_self _ _
      · left
        rfl
    · right
      exact List.mem_cons_of_mem _ h

lemma maxProbLeaf_mem (st : VState) (h : st.leaves ≠ []) :
    maxProbLeaf st ∈ st.leaves := by
  rw [maxProbLeaf]
  cases hl : st.leaves with
  | nil => exact absurd hl h
  | cons a rest =>
    dsimp only
    rcases foldl_pick_mem st rest a with h2 | h2
    · rw [h2]
      exact List.mem_cons_self _ _
    · exact List.mem_cons_of_mem _ h2

lemma variationsLoop_spec (oracle : List (List Char) → Stats × List CandidateMove)
    (rc : Color) (gm : List Char) (ml : List CandidateMove) :
    ∀ (n : ℕ) (st : VState) (cnt : ℕ) (out : VState × ℕ),
      variationsLoop oracle rc gm n st cnt = Except.ok out →
      TreeInv gm st → RootSlots gm ml st →
      TreeInv gm out.1 ∧ RootSlots gm ml out.1 ∧ out.2 ≤ cnt + n := by
  intro n
  induction n with
  | zero =>
    intro st cnt out h inv rs
    simp only [variationsLoop] at h
    cases h
    exact ⟨inv, rs, le_refl _⟩
  | succ m ih =>
    intro st cnt out h inv rs
    rw [variationsLoop] at h
    by_cases hl : st.leaves = []
    · rw [if_pos hl] at h
      obtain ⟨a, b, c⟩ := ih st cnt out h inv rs
      exact ⟨a, b, by omega⟩
    · rw [if_neg hl] at h
      cases hs : searchStep oracle rc gm (maxProbLeaf st) st with
      | error e =>
        rw [hs] at h
        simp [except_error_bind] at h
      | ok st2 =>
        rw [hs] at h
        simp only [except_ok_bind] at h
        have hnz : maxProbLeaf st ≠ 0 :=
          (inv.leaves_ok _ (maxProbLeaf_mem st hl)).2
        have inv2 := searchStep_preserves_TreeInv oracle rc gm _ st st2 hs inv
        have rs2 := searchStep_preserves_RootSlots oracle rc gm ml _ st st2 hs hnz rs
        obtain ⟨a, b, c⟩ := ih st2 (cnt + 1) out h inv2 rs2
        exact ⟨a, b, by omega⟩

lemma rootState_TreeInv (rc : Color) (gm : List Char) (stats : Stats)
    (ml : List CandidateMove) : TreeInv gm (rootState rc stats ml) := by
  constructor
  · intro i n hi _
    cases i with
    | zero =>
      cases hi
      rfl
    | succ j => cases hi
  · intro i n hi hnr
    cases i with
    | zero =>
      cases hi
      cases hnr
    | succ j => cases hi
  · intro id hid
    cases hid

/-- C4: over any successful run of do_variations with budget N (the guard
implies the root is non-book with a nonempty candidate list), the selection
loop performs at most N expansions, every root candidate equal to the real
game move keeps the absent (None) child slot, and no non-root node's line
starts with the real game move — the real game continuation is never
expanded. -/
theorem C4_budget_and_exclusion
    (oracle : List (List Char) → Stats × List CandidateMove)
    (rc : Color) (gm : List Char) (stats : Stats) (ml : List CandidateMove)
    (N : ℕ) (fin : VState) (cnt : ℕ)
    (h : do_variations oracle rc gm stats ml N = some (Except.ok (fin, cnt))) :
    cnt ≤ N
    ∧ (∀ k mv, ml.get? k = some mv → mv.pos = gm →
        ∃ r, fin.nodes.get? 0 = some r ∧ r.children.get? k = some none)
    ∧ (∀ i n, fin.nodes.get? i = some n → n.is_root = false →
        n.history.head? ≠ some gm) := by
  rw [do_variations] at h
  by_cases hg : stats.bookmoves.isSome ∨ ml.length ≤ 0
  · rw [if_pos hg] at h
    cases h
  · rw [if_neg hg] at h
    simp only [Option.some.injEq] at h
    cases he : expand rc gm 0 stats ml (rootState rc stats ml) with
    | error e =>
      rw [he] at h
      simp [except_error_bind] at h
    | ok st1 =>
      rw [he] at h
      simp only [except_ok_bind] at h
      have htree : (rootState rc stats ml).nodes.get? 0 = some (rootTree rc stats ml) := rfl
      have inv1 : TreeInv gm st1 :=
        expand_preserves_TreeInv rc gm 0 stats ml _ _ _ htree he
          (rootState_TreeInv rc gm stats ml)
      have rs1 : RootSlots gm ml st1 := by
        obtain ⟨_, _, ⟨node2, hget, _, _, _, _, _, _, _, _, hidx⟩, _, _⟩ :=
          expand_spec rc gm 0 stats ml _ (rootTree rc stats ml) st1 htree he
        refine ⟨node2, hget, ?_⟩
        intro k mv hk hpos
        exact (hidx k mv hk).1 ⟨rfl, hpos⟩
      obtain ⟨invf, rsf, hcnt⟩ :=
        variationsLoop_spec oracle rc gm ml N st1 0 (fin, cnt) h inv1 rs1
      refine ⟨by simpa using hcnt, ?_, ?_⟩
      · intro k mv hk hpos
        obtain ⟨r, hr, hslots⟩ := rsf
        exact ⟨r, hr, hslots k mv hk hpos⟩
      · intro i n hi hnr
        exact (invf.nonroot i n hi hnr).2

def c4Oracle : List (List Char) → Stats × List CandidateMove := fun _ => ({}, [])

def c4Ml : List CandidateMove :=
  [{ pos := "gg".toList, visits := 3 }, { pos := "gg".toList, visits := 2 }]

/-- The final state of the C4 witness run: both root candidates equal the
real game move, so both child slots are absent and no expansion follows. -/
def c4Fin : VState :=
  { nodes := [expandedNode (rootTree Color.black ({} : Stats) c4Ml) ({} : Stats) c4Ml
      [none, none]],
    leaves := [] }

/-- C4 witness: a budget-1 run whose root candidates both coincide with the
real game move — the loop performs 0 ≤ 1 expansions, both root child slots
are None, and no non-root line starts with the game move. -/
theorem C4_witness :
    (0 : ℕ) ≤ 1
    ∧ (∀ k mv, c4Ml.get? k = some mv → mv.pos = "gg".toList →
        ∃ r, c4Fin.nodes.get? 0 = some r ∧ r.children.get? k = some none)
    ∧ (∀ i n, c4Fin.nodes.get? i = some n → n.is_root = false →
        n.history.head? ≠ some ("gg".toList)) :=
  C4_budget_and_exclusion c4Oracle Color.black ("gg".toList) {} c4Ml 1 c4Fin 0 rfl

/-! ### C3: reaching probabilities along the tree -/

/-- Probability invariants: every node's reaching probability lies in [0,1],
and every child link carries a probability at most its parent's. -/
structure ProbInv (st : VState) : Prop where
  bounds : ∀ i n, st.nodes.get? i = some n → 0 ≤ n.prob ∧ n.prob ≤ 1
  edges : ∀ i p, st.nodes.get? i = some p → ∀ oc ∈ p.children, ∀ cid, oc = some cid →
    ∃ c, st.nodes.get? cid = some c ∧ c.prob ≤ p.prob

lemma raw_nonneg (rc c : Color) (i : ℕ) (mv : CandidateMove)
    (hp : 0 ≤ mv.policy_prob) : 0 ≤ child_prob_raw rc c i mv := by
  rw [child_prob_raw]
  split
  · norm_num
  · split
    · positivity
    · have hv : (0 : ℚ) ≤ (mv.visits : ℚ) := by positivity
      have : (0 : ℚ) ≤ mv.policy_prob + (mv.visits : ℚ) := by linarith
      have h2 : (0 : ℚ) < 2.0 := by norm_num
      exact div_nonneg this (le_of_lt h2)

lemma probsum_nonneg (rc c : Color) (ml : List CandidateMove)
    (hnn : ∀ i m2, ml.get? i = some m2 → 0 ≤ child_prob_raw rc c i m2) :
    0 ≤ probsum rc c ml := by
  rw [probsum_eq_sum]
  apply List.sum_nonneg
  intro x hx
  obtain ⟨q, hq, hqx⟩ := List.mem_map.mp hx
  rw [← hqx]
  exact hnn q.1 q.2 (mem_enum_get hq)

lemma raw_le_probsum (rc c : Color) (ml : List CandidateMove) (k : ℕ)
    (mv : CandidateMove) (hk : ml.get? k = some mv)
    (hnn : ∀ i m2, ml.get? i = some m2 → 0 ≤ child_prob_raw rc c i m2) :
    child_prob_raw rc c k mv ≤ probsum rc c ml := by
  rw [probsum_eq_sum]
  apply List.single_le_sum
  · intro x hx
    obtain ⟨q, hq, hqx⟩ := List.mem_map.mp hx
    rw [← hqx]
    exact hnn q.1 q.2 (mem_enum_get hq)
  · have hkm : ml.enum.get? k = some (k, mv) := by
      rw [enum_get?, hk]
      rfl
    exact List.mem_map.mpr ⟨(k, mv), List.get?_mem hkm, rfl⟩

lemma expand_preserves_ProbInv (rc : Color) (gm : List Char) (nid : ℕ)
    (stats : Stats) (ml : List CandidateMove) (st : VState) (node : VNode)
    (st2 : VState) (hn : st.nodes.get? nid = some node)
    (h : expand rc gm nid stats ml st = Except.ok st2)
    (hnn : ∀ mv ∈ ml, 0 ≤ mv.policy_prob)
    (inv : ProbInv st) : ProbInv st2 := by
  obtain ⟨hlen, hframe, ⟨node2, hget2, _, _, hnp, _, _, _, _, hclen, hidx⟩, hnew, _⟩ :=
    expand_spec rc gm nid stats ml st node st2 hn h
  have hnidlt : nid < st.nodes.length := by
    by_contra hc
    rw [List.get?_eq_none.mpr (by omega)] at hn
    cases hn
  have hraws : ∀ i m2, ml.get? i = some m2 → 0 ≤ child_prob_raw rc node.color i m2 := by
    intro i m2 hi
    exact raw_nonneg _ _ _ _ (hnn m2 (List.get?_mem hi))
  have hfresh_bound : ∀ j c, st.nodes.length ≤ j → st2.nodes.get? j = some c →
      0 ≤ c.prob ∧ c.prob ≤ node.prob := by
    intro j c hj hc
    obtain ⟨_, _, _, _, p, hp, _, _, hps, hcp⟩ := hnew j c hj hc
    have hple := raw_le_probsum rc node.color ml p.1 p.2 hp hraws
    have hrawnn := hraws p.1 p.2 hp
    have hpsum_pos : 0 < probsum rc node.color ml :=
      lt_of_le_of_ne (probsum_nonneg rc node.color ml hraws) (Ne.symm hps)
    obtain ⟨hn0, _⟩ := inv.bounds nid node hn
    constructor
    · rw [hcp]
      exact mul_nonneg hn0 (div_nonneg hrawnn (le_of_lt hpsum_pos))
    · rw [hcp]
      have hdiv : child_prob_raw rc node.color p.1 p.2 / probsum rc node.color ml ≤ 1 :=
        (div_le_one hpsum_pos).mpr hple
      calc node.prob * (child_prob_raw rc node.color p.1 p.2 / probsum rc node.color ml)
          ≤ node.prob * 1 := mul_le_mul_of_nonneg_left hdiv hn0
        _ = node.prob := mul_one _
  constructor
  · intro i n hi
    by_cases hilt : i < st.nodes.length
    · by_cases hieq : i = nid
      · subst hieq
        rw [hget2] at hi
        cases hi
        rw [hnp]
        exact inv.bounds i node hn
      · rw [hframe _ hilt hieq] at hi
        exact inv.bounds i n hi
    · push_neg at hilt
      obtain ⟨h0, h1⟩ := hfresh_bound i n hilt hi
      obtain ⟨_, hb1⟩ := inv.bounds nid node hn
      exact ⟨h0, le_trans h1 hb1⟩
  · intro i p hi oc hoc cid hcid
    by_cases hilt : i < st.nodes.length
    · by_cases hieq : i = nid
      · subst hieq
        rw [hget2] at hi
        cases hi
        subst hcid
        obtain ⟨k, hkidx⟩ := List.get?_of_mem hoc
        have hklen : k < ml.length := by
          by_contra hkc
          rw [List.get?_eq_none.mpr (by omega)] at hkidx
          cases hkidx
        obtain ⟨mv, hmv⟩ : ∃ mv, ml.get? k = some mv := by
          cases hml : ml.get? k with
          | none =>
            rw [List.get?_eq_none] at hml
            omega
          | some mv => exact ⟨mv, rfl⟩
        obtain ⟨hskipk, hcreatek⟩ := hidx k mv hmv
        by_cases hsk : node.is_root = true ∧ mv.pos = gm
        · rw [hskipk hsk] at hkidx
          cases hkidx
        · obtain ⟨cid2, child, hslot2, hfr, hcget, _, _, _⟩ := hcreatek hsk
          rw [hslot2] at hkidx
          have hcc : cid2 = cid := by
            cases hkidx
            rfl
          subst hcc
          refine ⟨child, hcget, ?_⟩
          rw [hnp]
          exact (hfresh_bound cid2 child hfr hcget).2
      · rw [hframe _ hilt hieq] at hi
        obtain ⟨c, hcg, hcp⟩ := inv.edges i p hi oc hoc cid hcid
        by_cases hcn : cid = nid
        · subst hcn
          rw [hn] at hcg
          cases hcg
          exact ⟨node2, hget2, by rw [hnp]; exact hcp⟩
        · have hcidlt : cid < st.nodes.length := by
            by_contra hcc
            rw [List.get?_eq_none.mpr (by omega)] at hcg
            cases hcg
          exact ⟨c, by rw [hframe cid hcidlt hcn]; exact hcg, hcp⟩
    · push_neg at hilt
      obtain ⟨_, _, hch, _, _⟩ := hnew i p hilt hi
      rw [hch] at hoc
      cases hoc

lemma searchStep_preserves_ProbInv
    (oracle : List (List Char) → Stats × List CandidateMove)
    (Hor : ∀ hist mv, mv ∈ (oracle hist).2 → 0 ≤ mv.policy_prob)
    (rc : Color) (gm : List Char) (nid : ℕ) (st st2 : VState)
    (h : searchStep oracle rc gm nid st = Except.ok st2)
    (inv : ProbInv st) : ProbInv st2 := by
  rw [searchStep] at h
  cases hg : st.nodes.get? nid with
  | none =>
    rw [hg] at h
    cases h
  | some node =>
    rw [hg] at h
    dsimp only at h
    exact expand_preserves_ProbInv rc gm nid _ _ st node st2 hg h
      (fun mv hm => Hor node.history mv hm) inv

lemma variationsLoop_ProbInv (oracle : List (List Char) → Stats × List CandidateMove)
    (Hor : ∀ hist mv, mv ∈ (oracle hist).2 → 0 ≤ mv.policy_prob)
    (rc : Color) (gm : List Char) :
    ∀ (n : ℕ) (st : VState) (cnt : ℕ) (out : VState × ℕ),
      variationsLoop oracle rc gm n st cnt = Except.ok out →
      ProbInv st → ProbInv out.1 := by
  intro n
  induction n with
  | zero =>
    intro st cnt out h inv
    simp only [variationsLoop] at h
    cases h
    exact inv
  | succ m ih =>
    intro st cnt out h inv
    rw [variationsLoop] at h
    by_cases hl : st.leaves = []
    · rw [if_pos hl] at h
      exact ih st cnt out h inv
    · rw [if_neg hl] at h
      cases hs : searchStep oracle rc gm (maxProbLeaf st) st with
      | error e =>
        rw [hs] at h
        simp [except_error_bind] at h
      | ok st2 =>
        rw [hs] at h
        simp only [except_ok_bind] at h
        exact ih st2 (cnt + 1) out h
          (searchStep_preserves_ProbInv oracle Hor rc gm _ st st2 hs inv)

lemma rootState_ProbInv (rc : Color) (stats : Stats) (ml : List CandidateMove) :
    ProbInv (rootState rc stats ml) := by
  constructor
  · intro i n hi
    cases i with
    | zero =>
      cases hi
      constructor
      · norm_num [rootTree]
      · norm_num [rootTree]
    | succ j => cases hi
  · intro i p hi oc hoc cid hcid
    cases i with
    | zero =>
      cases hi
      cases hoc
    | succ j => cases hi

/-- C3 (amended): in any successful do_variations run whose candidate lists
(initial and oracle-produced) carry nonnegative policy probabilities, every
node's reaching probability lies in the closed interval [0,1] — probability
0 occurs for zero-weight candidates, so (0,1] is wrong — and along every
parent-child link the probability is non-increasing (not strictly
decreasing; a single-candidate node's child keeps its parent's probability).
Book-move children get raw weight 1.0, normalized like any other candidate,
not a fixed probability of 1.0. -/
theorem C3_amended_probabilities
    (oracle : List (List Char) → Stats × List CandidateMove)
    (rc : Color) (gm : List Char) (stats : Stats) (ml : List CandidateMove)
    (N : ℕ) (fin : VState) (cnt : ℕ)
    (Hml : ∀ mv ∈ ml, 0 ≤ mv.policy_prob)
    (Hor : ∀ hist mv, mv ∈ (oracle hist).2 → 0 ≤ mv.policy_prob)
    (h : do_variations oracle rc gm stats ml N = some (Except.ok (fin, cnt))) :
    (∀ i n, fin.nodes.get? i = some n → 0 ≤ n.prob ∧ n.prob ≤ 1)
    ∧ (∀ i p, fin.nodes.get? i = some p → ∀ oc ∈ p.children, ∀ cid, oc = some cid →
        ∃ c, fin.nodes.get? cid = some c ∧ c.prob ≤ p.prob) := by
  rw [do_variations] at h
  by_cases hg : stats.bookmoves.isSome ∨ ml.length ≤ 0
  · rw [if_pos hg] at h
    cases h
  · rw [if_neg hg] at h
    simp only [Option.some.injEq] at h
    cases he : expand rc gm 0 stats ml (rootState rc stats ml) with
    | error e =>
      rw [he] at h
      simp [except_error_bind] at h
    | ok st1 =>
      rw [he] at h
      simp only [except_ok_bind] at h
      have htree : (rootState rc stats ml).nodes.get? 0
          = some (rootTree rc stats ml) := rfl
      have inv1 : ProbInv st1 :=
        expand_preserves_ProbInv rc gm 0 stats ml _ _ _ htree he Hml
          (rootState_ProbInv rc stats ml)
      have invf : ProbInv fin := by
        have := variationsLoop_ProbInv oracle Hor rc gm N st1 0 (fin, cnt) h inv1
        exact this
      exact ⟨invf.bounds, invf.edges⟩

def c3A : CandidateMove := { pos := "aa".toList, visits := 0, policy_prob := 0 }

def c3B : CandidateMove := { pos := "ab".toList, visits := 5, policy_prob := 0 }

def c3Ml : List CandidateMove := [c3A, c3B]

def c3Oracle : List (List Char) → Stats × List CandidateMove := fun _ => ({}, [])

lemma c3_probsum : probsum Color.black Color.black c3Ml = 5 := by
  simp [probsum, c3Ml, List.enum, List.enumFrom, child_prob_raw, c3A, c3B]

lemma c3_expand_ok :
    ∃ st1, expand Color.black ("gg".toList) 0 ({} : Stats) c3Ml
      (rootState Color.black {} c3Ml) = Except.ok st1 := by
  obtain ⟨out, hout⟩ := expandFold_ok Color.black ("gg".toList)
    (rootTree Color.black {} c3Ml)
    (probsum Color.black (rootTree Color.black {} c3Ml).color c3Ml)
    (by
      rw [show (rootTree Color.black {} c3Ml).color = Color.black from rfl, c3_probsum]
      norm_num) (c3Ml.enum) (rootState Color.black {} c3Ml) []
  refine ⟨{ nodes := out.1.nodes.set 0
              (expandedNode (rootTree Color.black {} c3Ml) {} c3Ml out.2),
            leaves := out.1.leaves.erase 0 }, ?_⟩
  rw [expand, show (rootState Color.black {} c3Ml).nodes.get? 0
    = some (rootTree Color.black {} c3Ml) from rfl]
  dsimp only
  rw [hout]
  simp only [except_ok_bind]
  rfl

lemma c3_run (st1 : VState)
    (h : expand Color.black ("gg".toList) 0 ({} : Stats) c3Ml
      (rootState Color.black {} c3Ml) = Except.ok st1) :
    do_variations c3Oracle Color.black ("gg".toList) {} c3Ml 0
      = some (Except.ok (st1, 0)) := by
  rw [do_variations, if_neg (by simp [c3Ml]), h]
  simp only [except_ok_bind]
  rfl

/-- C3 counterexample: a concrete do_variations run (root candidates with
visit counts 0 and 5, neither a book move, budget 0) yields one child with
reaching probability 0 — outside the claimed (0,1] — and the other child
with probability equal to the root's 1.0, so probabilities are not strictly
decreasing along that root-to-leaf path either. -/
theorem C3_counterexample :
    ∃ st1 root2 cidA chA cidB chB,
      do_variations c3Oracle Color.black ("gg".toList) {} c3Ml 0
        = some (Except.ok (st1, 0))
      ∧ st1.nodes.get? 0 = some root2
      ∧ root2.children.get? 0 = some (some cidA)
      ∧ st1.nodes.get? cidA = some chA
      ∧ c3A.is_book = false ∧ chA.prob = 0 ∧ ¬(0 < chA.prob)
      ∧ root2.children.get? 1 = some (some cidB)
      ∧ st1.nodes.get? cidB = some chB
      ∧ c3B.is_book = false ∧ chB.prob = root2.prob := by
  obtain ⟨st1, hok⟩ := c3_expand_ok
  have hrun := c3_run st1 hok
  obtain ⟨_, _, ⟨root2, hget, _, _, hprob, _, _, _, _, _, hidx⟩, _, _⟩ :=
    expand_spec Color.black ("gg".toList) 0 {} c3Ml (rootState Color.black {} c3Ml)
      (rootTree Color.black {} c3Ml) st1 rfl hok
  obtain ⟨_, hcreate0⟩ := hidx 0 c3A rfl
  obtain ⟨cidA, chA, hslotA, _, hcgetA, _, _, hcpA⟩ :=
    hcreate0 (by simp [rootTree, c3A])
  obtain ⟨_, hcreate1⟩ := hidx 1 c3B rfl
  obtain ⟨cidB, chB, hslotB, _, hcgetB, _, _, hcpB⟩ :=
    hcreate1 (by simp [rootTree, c3B])
  have hApr : chA.prob = 0 := by
    rw [hcpA]
    simp only [show (rootTree Color.black {} c3Ml).color = Color.black from rfl,
      show (rootTree Color.black {} c3Ml).prob = (1.0 : ℚ) from rfl, c3_probsum]
    norm_num [child_prob_raw, c3A]
  refine ⟨st1, root2, cidA, chA, cidB, chB, hrun, hget, hslotA, hcgetA, rfl,
    hApr, ?_, hslotB, hcgetB, rfl, ?_⟩
  · rw [hApr]
    norm_num
  · rw [hcpB, hprob]
    simp only [show (rootTree Color.black {} c3Ml).color = Color.black from rfl,
      show (rootTree Color.black {} c3Ml).prob = (1.0 : ℚ) from rfl, c3_probsum]
    norm_num [child_prob_raw, c3B]

/-- C3 witness: the amended probability bounds on the concrete budget-0 run
with candidates of visit counts 0 and 5. -/
theorem C3_witness :
    ∃ st1, do_variations c3Oracle Color.black ("gg".toList) {} c3Ml 0
        = some (Except.ok (st1, 0))
      ∧ (∀ i n, st1.nodes.get? i = some n → 0 ≤ n.prob ∧ n.prob ≤ 1)
      ∧ (∀ i p, st1.nodes.get? i = some p → ∀ oc ∈ p.children, ∀ cid, oc = some cid →
          ∃ c, st1.nodes.get? cid = some c ∧ c.prob ≤ p.prob) := by
  obtain ⟨st1, hok⟩ := c3_expand_ok
  have hrun := c3_run st1 hok
  refine ⟨st1, hrun, ?_⟩
  exact C3_amended_probabilities c3Oracle Color.black ("gg".toList) {} c3Ml 0 st1 0
    (by
      intro mv hm
      simp only [c3Ml, List.mem_cons, List.not_mem_nil, or_false] at hm
      rcases hm with h1 | h1
      · rw [h1]
        norm_num [c3A]
      · rw [h1]
        norm_num [c3B])
    (by
      intro hist mv hm
      simp [c3Oracle] at hm)
    hrun

end RayCLI
